import Mathlib

/-!
# OuonnkiTV core verification

Shallow embedding of the two algorithmic cores of the OuonnkiTV repository:

* the episode pagination / reindexing engine of `src/pages/Detail.tsx` and
  `src/pages/Video.tsx` (`pageRanges`, `currentPageEpisodes`,
  `handleEpisodeChange`, the `setCurrentPageRange` effect);
* the search store of the zustand search-store module
  (`getCachedResults`, `updateCachedResults`, `cleanExpiredCache`,
  `addSearchHistoryItem`, `removeSearchHistoryItem`, `clearSearchHistory`).

JavaScript objects (`Record<string, T>`) are modelled as insertion-ordered
association lists, which matches `Object.keys` enumeration order for string
keys; `delete` removes the key in place, assignment to an existing key keeps
its position, assignment to a fresh key appends.  `Date.now()` becomes an
explicit `now : Nat` argument.
-/

namespace OuonnkiTV

/-! ## Pagination engine (Detail.tsx / Video.tsx) -/

/-- One selectable page of episodes, as built by the `pageRanges` memo.
The source field `end` is a Lean keyword and is rendered as `stop`. -/
structure PageRange where
  label : String
  value : String
  start : Nat
  stop : Nat
deriving DecidableEq, Repr

/-- Body of the `pageRanges` loop for a window starting at display index `s`:
start `s`, end `min (s + episodesPerPage - 1) (total - 1)`, value `"start-end"`,
label `"start+1-end+1"` ascending or `"total-start  -  total-end"` descending. -/
def pageRangeAt (totalEpisodes episodesPerPage : Nat) (isReversed : Bool) (s : Nat) :
    PageRange :=
  let e := min (s + episodesPerPage - 1) (totalEpisodes - 1)
  { label :=
      if isReversed then
        toString (totalEpisodes - s) ++ "-" ++ toString (totalEpisodes - e)
      else
        toString (s + 1) ++ "-" ++ toString (e + 1)
    value := toString s ++ "-" ++ toString e
    start := s
    stop := e }

/-- The `for (let i = 0; i < totalEpisodes; i += episodesPerPage)` loop of the
`pageRanges` memo, started at `i`.  The source loop never terminates for
`episodesPerPage = 0`; that case is excluded by the guard and returns `[]`
(all statements below assume `1 ≤ episodesPerPage`). -/
def pageRangesAux (totalEpisodes episodesPerPage : Nat) (isReversed : Bool)
    (i : Nat) : List PageRange :=
  if _h : i < totalEpisodes ∧ 0 < episodesPerPage then
    pageRangeAt totalEpisodes episodesPerPage isReversed i ::
      pageRangesAux totalEpisodes episodesPerPage isReversed (i + episodesPerPage)
  else
    []
termination_by totalEpisodes - i
decreasing_by omega

/-- The `pageRanges` memo of `Detail.tsx` / `Video.tsx`: empty for zero
episodes, otherwise the window loop from display index 0. -/
def pageRanges (totalEpisodes episodesPerPage : Nat) (isReversed : Bool) :
    List PageRange :=
  if totalEpisodes = 0 then []
  else pageRangesAux totalEpisodes episodesPerPage isReversed 0

/-- One rendered episode tuple of the `currentPageEpisodes` memo.  `name`
models the JavaScript array access `episodes[actualIndex]` (`none` would be
`undefined`). -/
structure EpisodeItem where
  name : Option String
  displayIndex : Nat
  actualIndex : Nat
deriving DecidableEq, Repr

/-- The ascending branch of `currentPageEpisodes`:
`episodes.slice(start, end + 1).map((name, idx) => …)` with display and actual
index both `start + idx`. -/
def ascendingItems (start : Nat) : List String → Nat → List EpisodeItem
  | [], _ => []
  | name :: rest, idx =>
      { name := some name, displayIndex := start + idx, actualIndex := start + idx } ::
        ascendingItems start rest (idx + 1)

/-- The `currentPageEpisodes` memo of `Video.tsx` (the `Detail.tsx` copy is
identical), applied to already-parsed range bounds `start`/`stop`.  The
descending branch walks display indices `start..stop`, computes
`actualIndex = totalEpisodes - 1 - i` (in ℤ, as JavaScript does) and keeps the
item only under the source guard `0 ≤ actualIndex < totalEpisodes`. -/
def currentPageEpisodes (episodes : List String) (isReversed : Bool)
    (start stop : Nat) : List EpisodeItem :=
  let totalEpisodes := episodes.length
  if isReversed then
    (List.range' start (stop + 1 - start)).filterMap (fun (i : Nat) =>
      let actualIndex : Int := (totalEpisodes : Int) - 1 - (i : Int)
      if 0 ≤ actualIndex ∧ actualIndex < (totalEpisodes : Int) then
        some { name := episodes.get? actualIndex.toNat
               displayIndex := i
               actualIndex := actualIndex.toNat }
      else
        none)
  else
    ascendingItems start ((episodes.drop start).take (stop + 1 - start)) 0

/-- The display-to-actual index translation used by `handleEpisodeChange`
(`Video.tsx`) and `handlePlayEpisode` (`Detail.tsx`):
`isReversed ? total - 1 - displayIndex : displayIndex`. -/
def actualIndexFromDisplayIndex (displayIndex : Nat) (isReversed : Bool)
    (totalEpisodes : Nat) : Nat :=
  if isReversed then totalEpisodes - 1 - displayIndex else displayIndex

/-- The `setCurrentPageRange` effect of `Video.tsx`: compute the display index
of the selected episode, pick the first page range containing it, else fall
back to the first range; no state change when there are no ranges (`none`). -/
def resolveCurrentPageRange (ranges : List PageRange) (totalEpisodes : Nat)
    (selectedEpisode : Nat) (isReversed : Bool) : Option String :=
  match ranges with
  | [] => none
  | r0 :: _ =>
      let displayIndex : Int :=
        if isReversed then (totalEpisodes : Int) - 1 - (selectedEpisode : Int)
        else (selectedEpisode : Int)
      match ranges.find? (fun r =>
          decide ((r.start : Int) ≤ displayIndex ∧ displayIndex ≤ (r.stop : Int))) with
      | some r => some r.value
      | none => some r0.value

/-! ## Search store (zustand search-store module)

`VideoItem` is opaque to the store except for the identity fields
`source_code` and `vod_id`; `payload` stands for the remaining fields. -/

structure VideoItem where
  source_code : String
  vod_id : String
  payload : String
deriving DecidableEq, Repr

/-- The dedup key of `updateCachedResults`:
`` `${item.source_code}_${item.vod_id}` ``. -/
def dedupKey (item : VideoItem) : String :=
  item.source_code ++ "_" ++ item.vod_id

/-- One value of the `searchResultsCache` record. -/
structure SearchCacheItem where
  results : List VideoItem
  completedApiIds : List String
  isComplete : Bool
  timestamp : Nat
deriving DecidableEq, Repr

/-- `searchResultsCache : Record<string, SearchCacheItem>`, as an
insertion-ordered association list (matching `Object.keys` order). -/
abbrev Cache : Type := List (String × SearchCacheItem)

/-- `state.searchResultsCache[query]` (read). -/
def lookupEntry (q : String) : Cache → Option SearchCacheItem
  | [] => none
  | p :: ps => if p.1 = q then some p.2 else lookupEntry q ps

/-- `state.searchResultsCache[query] = v`: overwrite in place if the key
exists, else append (JavaScript property insertion order). -/
def setEntry (q : String) (v : SearchCacheItem) : Cache → Cache
  | [] => [(q, v)]
  | p :: ps => if p.1 = q then (q, v) :: ps else p :: setEntry q v ps

/-- `delete state.searchResultsCache[q]`. -/
def eraseEntry (q : String) : Cache → Cache
  | [] => []
  | p :: ps => if p.1 = q then ps else p :: eraseEntry q ps

/-- The `mergedResults.filter` pass of `updateCachedResults` with its `seen`
set: keep an item iff its `dedupKey` was not seen before. -/
def dedupResultsAux (seen : List String) : List VideoItem → List VideoItem
  | [] => []
  | x :: xs =>
      if dedupKey x ∈ seen then dedupResultsAux seen xs
      else x :: dedupResultsAux (dedupKey x :: seen) xs

/-- `uniqueResults` of `updateCachedResults` applied to the concatenation of
existing and new results. -/
def uniqueResults (l : List VideoItem) : List VideoItem :=
  dedupResultsAux [] l

/-- `Array.from(new Set([...a, ...b]))`: deduplicate strings keeping the
first-seen occurrence (JavaScript `Set` preserves insertion order). -/
def dedupStrings (seen : List String) : List String → List String
  | [] => []
  | x :: xs =>
      if x ∈ seen then dedupStrings seen xs
      else x :: dedupStrings (x :: seen) xs

/-- `MAX_CACHE_SIZE`. -/
def MAX_CACHE_SIZE : Nat := 10

/-- `CACHE_EXPIRY_TIME` (24 h in ms). -/
def CACHE_EXPIRY_TIME : Nat := 24 * 60 * 60 * 1000

/-- The oldest-entry scan of `updateCachedResults`: start from the first key,
fold `forEach` over all keys with strict `<` comparison.  The source reads
each timestamp as `state.searchResultsCache[key]?.timestamp || Date.now()`,
so a missing entry — and also a `0` timestamp, since `0` is falsy — is
replaced by `now`. -/
def findOldestKey (now : Nat) (c : Cache) : Option String :=
  match c.map Prod.fst with
  | [] => none
  | k0 :: _ =>
      let ts : String → Nat := fun k =>
        match lookupEntry k c with
        | some e => if e.timestamp = 0 then now else e.timestamp
        | none => now
      some (((c.map Prod.fst).foldl
        (fun best k => if ts k < best.2 then (k, ts k) else best)
        (k0, ts k0)).1)

/-- `updateCachedResults(query, newResults, completedApiIds, isComplete)`.
In the fresh-entry branch the eviction `delete` is guarded by
`if (oldestKey)`, which is false for the empty-string key. -/
def updateCachedResults (now : Nat) (query : String) (newResults : List VideoItem)
    (completedApiIds : List String) (isComplete : Bool) (c : Cache) : Cache :=
  match lookupEntry query c with
  | some existing =>
      setEntry query
        { results := uniqueResults (existing.results ++ newResults)
          completedApiIds := dedupStrings [] (existing.completedApiIds ++ completedApiIds)
          isComplete := isComplete || existing.isComplete
          timestamp := now } c
  | none =>
      let c1 :=
        if MAX_CACHE_SIZE ≤ c.length then
          match findOldestKey now c with
          | some oldestKey => if oldestKey = "" then c else eraseEntry oldestKey c
          | none => c
        else c
      setEntry query
        { results := newResults
          completedApiIds := completedApiIds
          isComplete := isComplete
          timestamp := now } c1

/-- `cleanExpiredCache`: snapshot the keys, then delete every entry whose age
exceeds `CACHE_EXPIRY_TIME`. -/
def cleanExpiredCache (now : Nat) (c : Cache) : Cache :=
  (c.map Prod.fst).foldl
    (fun acc key =>
      match lookupEntry key acc with
      | some cached =>
          if CACHE_EXPIRY_TIME < now - cached.timestamp then eraseEntry key acc
          else acc
      | none => acc)
    c

/-- One item of the search history. -/
structure SearchHistoryItem where
  id : String
  content : String
  createdAt : Nat
  updatedAt : Nat
deriving DecidableEq, Repr

/-- The store state that the search-store actions touch (persisted subset
plus the current query). -/
structure SearchStoreState where
  query : String
  searchHistory : List SearchHistoryItem
  searchResultsCache : Cache
deriving DecidableEq

/-- `getCachedResults(query)`: miss on absent key; delete and miss on an
expired entry (lazy expiry with a write side effect); otherwise return the
live entry with no state change. -/
def getCachedResults (now : Nat) (query : String) (st : SearchStoreState) :
    Option SearchCacheItem × SearchStoreState :=
  match lookupEntry query st.searchResultsCache with
  | none => (none, st)
  | some cached =>
      if CACHE_EXPIRY_TIME < now - cached.timestamp then
        (none, { st with searchResultsCache := eraseEntry query st.searchResultsCache })
      else
        (some cached, st)

/-- `existingItem.updatedAt = Date.now()`: refresh the timestamp of the first
history item with the given content, in place. -/
def refreshFirstByContent (content : String) (now : Nat) :
    List SearchHistoryItem → List SearchHistoryItem
  | [] => []
  | it :: rest =>
      if it.content = content then { it with updatedAt := now } :: rest
      else it :: refreshFirstByContent content now rest

/-- The `searchHistory.sort((a, b) => b.updatedAt - a.updatedAt)` call:
stable sort, descending by `updatedAt`. -/
def sortHistory (l : List SearchHistoryItem) : List SearchHistoryItem :=
  l.mergeSort (fun a b => b.updatedAt ≤ a.updatedAt)

/-- `addSearchHistoryItem(content)`: upsert by content (refresh `updatedAt`
on a hit, prepend a fresh item on a miss), then re-sort descending by
`updatedAt`.  `newId` stands for the generated `uuidv4()`. -/
def addSearchHistoryItem (now : Nat) (newId : String) (content : String)
    (l : List SearchHistoryItem) : List SearchHistoryItem :=
  match l.find? (fun it => it.content == content) with
  | some _ => sortHistory (refreshFirstByContent content now l)
  | none =>
      sortHistory
        ({ id := newId, content := content, createdAt := now, updatedAt := now } :: l)

/-- `removeSearchHistoryItem(id)`. -/
def removeSearchHistoryItem (id : String) (l : List SearchHistoryItem) :
    List SearchHistoryItem :=
  l.filter (fun it => it.id ≠ id)

/-- One call to a search-history action. -/
inductive HistoryOp where
  | add (now : Nat) (newId : String) (content : String)
  | remove (id : String)
  | clear
deriving DecidableEq, Repr

/-- Run a sequence of history actions. -/
def applyHistoryOps (ops : List HistoryOp) (l : List SearchHistoryItem) :
    List SearchHistoryItem :=
  ops.foldl
    (fun acc op =>
      match op with
      | .add now newId content => addSearchHistoryItem now newId content acc
      | .remove id => removeSearchHistoryItem id acc
      | .clear => []) l

/-- One call to `updateCachedResults`. -/
structure UpdateOp where
  now : Nat
  query : String
  newResults : List VideoItem
  completedApiIds : List String
  isComplete : Bool
deriving DecidableEq, Repr

/-- Run a sequence of `updateCachedResults` calls. -/
def applyUpdates (ops : List UpdateOp) (c : Cache) : Cache :=
  ops.foldl
    (fun acc op =>
      updateCachedResults op.now op.query op.newResults op.completedApiIds
        op.isComplete acc) c

/-! ## Specification-side definitions

These definitions restate what the specification claims in its own words,
to be compared with the code-side definitions above. -/

/-- Deduplication as the spec words it for the merge step: keep the first-seen
occurrence of each dedup key, drop every later item carrying a key already
kept. -/
def dedupFirstSpec : List VideoItem → List VideoItem
  | [] => []
  | x :: xs =>
      x :: dedupFirstSpec (xs.filter (fun y => !(dedupKey y == dedupKey x)))
termination_by l => l.length
decreasing_by
  simp only [List.length_cons]
  exact Nat.lt_succ_of_le (List.length_filter_le _ _)

/-- Deduplication by the pair `(source_code, vod_id)` keeping the first-seen
occurrence — the claim's wording for the merge step. -/
def dedupByPairSpec : List VideoItem → List VideoItem
  | [] => []
  | x :: xs =>
      x :: dedupByPairSpec (xs.filter
        (fun y => !(y.source_code == x.source_code && y.vod_id == x.vod_id)))
termination_by l => l.length
decreasing_by
  simp only [List.length_cons]
  exact Nat.lt_succ_of_le (List.length_filter_le _ _)

/-- First element of a `(key, timestamp)` list attaining the minimal
timestamp (ties resolved to the earlier element). -/
def firstMinP : List (String × Nat) → Option (String × Nat)
  | [] => none
  | p :: ps =>
      match firstMinP ps with
      | none => some p
      | some q => if q.2 < p.2 then some q else some p

/-- Concrete `updateCachedResults` sequence exhibiting the eviction guard
`if (oldestKey)`: the first call uses the empty-string query, the next nine
fill the cache to capacity, and the eleventh meets a full cache whose oldest
key is `""` — the falsy guard then skips the `delete` and the cache grows to
11 entries. -/
def elevenUpdates : List UpdateOp :=
  [ ⟨1, "", [], [], false⟩,
    ⟨2, "q1", [], [], false⟩,
    ⟨3, "q2", [], [], false⟩,
    ⟨4, "q3", [], [], false⟩,
    ⟨5, "q4", [], [], false⟩,
    ⟨6, "q5", [], [], false⟩,
    ⟨7, "q6", [], [], false⟩,
    ⟨8, "q7", [], [], false⟩,
    ⟨9, "q8", [], [], false⟩,
    ⟨10, "q9", [], [], false⟩,
    ⟨11, "q10", [], [], false⟩ ]

/-! ## Association-list lemmas -/

theorem mem_keys_tail {p : String × SearchCacheItem} {ps : Cache} {q : String}
    (h : q ∈ (p :: ps).map Prod.fst) (hne : p.1 ≠ q) : q ∈ ps.map Prod.fst := by
  rcases List.mem_map.mp h with ⟨x, hx, hxq⟩
  rcases List.mem_cons.mp hx with hx | hx
  · exact absurd (hx ▸ hxq) hne
  · exact List.mem_map.mpr ⟨x, hx, hxq⟩

theorem lookupEntry_eq_none_iff (q : String) (c : Cache) :
    lookupEntry q c = none ↔ q ∉ c.map Prod.fst := by
  induction c with
  | nil => simp [lookupEntry]
  | cons p ps ih =>
      by_cases h : p.1 = q
      · simp [lookupEntry, h]
      · simp [lookupEntry, h, ih, Ne.symm h]

theorem lookupEntry_isSome_of_mem {q : String} {c : Cache}
    (h : q ∈ c.map Prod.fst) : ∃ e, lookupEntry q c = some e := by
  induction c with
  | nil => simp at h
  | cons p ps ih =>
      by_cases hpq : p.1 = q
      · exact ⟨p.2, by simp [lookupEntry, hpq]⟩
      · rcases ih (mem_keys_tail h hpq) with ⟨e, he⟩
        exact ⟨e, by simp [lookupEntry, hpq, he]⟩

theorem lookupEntry_of_mem_nodup {c : Cache} (hnd : (c.map Prod.fst).Nodup)
    {k : String} {e : SearchCacheItem} (h : (k, e) ∈ c) :
    lookupEntry k c = some e := by
  induction c with
  | nil => simp at h
  | cons p ps ih =>
      simp only [List.map_cons, List.nodup_cons] at hnd
      rcases List.mem_cons.mp h with h | h
      · rw [← h]
        simp [lookupEntry]
      · have hk : k ∈ ps.map Prod.fst := List.mem_map.mpr ⟨(k, e), h, rfl⟩
        have hne : p.1 ≠ k := fun hpk => hnd.1 (hpk ▸ hk)
        simp [lookupEntry, hne, ih hnd.2 h]

theorem lookupEntry_setEntry_self (q : String) (v : SearchCacheItem) (c : Cache) :
    lookupEntry q (setEntry q v c) = some v := by
  induction c with
  | nil => simp [setEntry, lookupEntry]
  | cons p ps ih =>
      by_cases h : p.1 = q
      · simp [setEntry, h, lookupEntry]
      · simp [setEntry, h, lookupEntry, ih]

theorem lookupEntry_setEntry_ne {q q' : String} (h : q ≠ q')
    (v : SearchCacheItem) (c : Cache) :
    lookupEntry q (setEntry q' v c) = lookupEntry q c := by
  induction c with
  | nil => simp [setEntry, lookupEntry, Ne.symm h]
  | cons p ps ih =>
      by_cases hp : p.1 = q'
      · have hpq : p.1 ≠ q := fun hq => h (hq ▸ hp ▸ rfl)
        simp [setEntry, hp, lookupEntry, Ne.symm h, hpq]
      · simp [setEntry, hp, lookupEntry, ih]

theorem setEntry_of_not_mem {q : String} {c : Cache}
    (h : q ∉ c.map Prod.fst) (v : SearchCacheItem) :
    setEntry q v c = c ++ [(q, v)] := by
  induction c with
  | nil => simp [setEntry]
  | cons p ps ih =>
      simp only [List.map_cons, List.mem_cons, not_or] at h
      have hpq : p.1 ≠ q := fun hh => h.1 hh.symm
      simp [setEntry, hpq, ih h.2]

theorem keys_setEntry_of_mem {q : String} {c : Cache}
    (h : q ∈ c.map Prod.fst) (v : SearchCacheItem) :
    (setEntry q v c).map Prod.fst = c.map Prod.fst := by
  induction c with
  | nil => simp at h
  | cons p ps ih =>
      by_cases hpq : p.1 = q
      · simp [setEntry, hpq]
      · simp [setEntry, hpq, ih (mem_keys_tail h hpq)]

theorem eraseEntry_sublist (q : String) (c : Cache) :
    (eraseEntry q c).Sublist c := by
  induction c with
  | nil => simp [eraseEntry]
  | cons p ps ih =>
      by_cases h : p.1 = q
      · simp [eraseEntry, h]
      · simpa [eraseEntry, h] using ih.cons₂ p

theorem length_eraseEntry_of_mem {q : String} {c : Cache}
    (h : q ∈ c.map Prod.fst) :
    (eraseEntry q c).length + 1 = c.length := by
  induction c with
  | nil => simp at h
  | cons p ps ih =>
      by_cases hpq : p.1 = q
      · simp [eraseEntry, hpq]
      · simp [eraseEntry, hpq, ih (mem_keys_tail h hpq)]

theorem lookupEntry_eraseEntry_ne {q k : String} (h : q ≠ k) (c : Cache) :
    lookupEntry q (eraseEntry k c) = lookupEntry q c := by
  induction c with
  | nil => simp [eraseEntry]
  | cons p ps ih =>
      by_cases hpk : p.1 = k
      · have hpq : p.1 ≠ q := fun hq => h (hq ▸ hpk ▸ rfl)
        simp [eraseEntry, hpk, lookupEntry, hpq, Ne.symm h]
      · simp [eraseEntry, hpk, lookupEntry, ih]

theorem eraseEntry_eq_filter {c : Cache} (hnd : (c.map Prod.fst).Nodup)
    (k : String) :
    eraseEntry k c = c.filter (fun p => !(p.1 == k)) := by
  induction c with
  | nil => simp [eraseEntry]
  | cons p ps ih =>
      simp only [List.map_cons, List.nodup_cons] at hnd
      by_cases hpk : p.1 = k
      · have hps : ps.filter (fun p => !(p.1 == k)) = ps := by
          apply List.filter_eq_self.mpr
          intro x hx
          have hxk : x.1 ≠ k := fun hxk =>
            hnd.1 (hpk ▸ hxk ▸ List.mem_map.mpr ⟨x, hx, rfl⟩)
          simpa using hxk
        simp [eraseEntry, hpk, hps]
      · simp [eraseEntry, hpk, ih hnd.2]

theorem lookupEntry_eraseEntry_self {c : Cache}
    (hnd : (c.map Prod.fst).Nodup) (k : String) :
    lookupEntry k (eraseEntry k c) = none := by
  rw [eraseEntry_eq_filter hnd, lookupEntry_eq_none_iff]
  intro hk
  rcases List.mem_map.mp hk with ⟨x, hx, hxk⟩
  have := (List.mem_filter.mp hx).2
  simp [hxk] at this

theorem lookupEntry_append_some {q : String} {c : Cache} {e : SearchCacheItem}
    (h : lookupEntry q c = some e) (c' : Cache) :
    lookupEntry q (c ++ c') = some e := by
  induction c with
  | nil => simp [lookupEntry] at h
  | cons p ps ih =>
      by_cases hpq : p.1 = q
      · simp [lookupEntry, hpq] at h ⊢
        exact h
      · simp only [List.cons_append, lookupEntry, hpq, if_false] at h ⊢
        exact ih h

theorem lookupEntry_append_none {q : String} {c : Cache}
    (h : lookupEntry q c = none) (c' : Cache) :
    lookupEntry q (c ++ c') = lookupEntry q c' := by
  induction c with
  | nil => simp
  | cons p ps ih =>
      by_cases hpq : p.1 = q
      · simp [lookupEntry, hpq] at h
      · simp only [List.cons_append, lookupEntry, hpq, if_false] at h ⊢
        exact ih h

theorem lookupEntry_filter_none {q : String} {c : Cache}
    (h : lookupEntry q c = none) (f : String × SearchCacheItem → Bool) :
    lookupEntry q (c.filter f) = none := by
  rw [lookupEntry_eq_none_iff] at h ⊢
  intro hq
  rcases List.mem_map.mp hq with ⟨x, hx, hxq⟩
  exact h (List.mem_map.mpr ⟨x, (List.mem_filter.mp hx).1, hxq⟩)

/-! ## Pagination lemmas -/

theorem filterMap_congr_map {α β : Type _} {l : List α} {f : α → Option β}
    {g : α → β} (h : ∀ a ∈ l, f a = some (g a)) : l.filterMap f = l.map g := by
  induction l with
  | nil => rfl
  | cons a l ih =>
      simp [List.filterMap_cons, h a (by simp), ih fun x hx => h x (by simp [hx])]

theorem currentPageEpisodes_desc_eq (episodes : List String) (start stop : Nat)
    (h : stop < episodes.length) :
    currentPageEpisodes episodes true start stop =
      (List.range' start (stop + 1 - start)).map (fun i =>
        { name := episodes.get? (episodes.length - 1 - i)
          displayIndex := i
          actualIndex := episodes.length - 1 - i }) := by
  unfold currentPageEpisodes
  simp only [if_true]
  apply filterMap_congr_map
  intro i hi
  rw [List.mem_range'_1] at hi
  have hstop : i ≤ stop := by omega
  have hg : (0 : Int) ≤ (episodes.length : Int) - 1 - (i : Int) ∧
      (episodes.length : Int) - 1 - (i : Int) < (episodes.length : Int) := by
    constructor <;> [omega; omega]
  rw [if_pos hg]
  have ht : ((episodes.length : Int) - 1 - (i : Int)).toNat =
      episodes.length - 1 - i := by omega
  rw [ht]

theorem mem_currentPageEpisodes_desc {episodes : List String} {start stop : Nat}
    {x : EpisodeItem} (hx : x ∈ currentPageEpisodes episodes true start stop) :
    x.name.isSome = true ∧ x.actualIndex < episodes.length ∧
      x.actualIndex = episodes.length - 1 - x.displayIndex := by
  unfold currentPageEpisodes at hx
  simp only [if_true] at hx
  rcases List.mem_filterMap.mp hx with ⟨i, _hi, hfi⟩
  by_cases hg : (0 : Int) ≤ (episodes.length : Int) - 1 - (i : Int) ∧
      (episodes.length : Int) - 1 - (i : Int) < (episodes.length : Int)
  · rw [if_pos hg] at hfi
    have hlt : ((episodes.length : Int) - 1 - (i : Int)).toNat < episodes.length := by
      omega
    have hname : episodes.get? (((episodes.length : Int) - 1 - (i : Int)).toNat) =
        some (episodes.get ⟨_, hlt⟩) := List.get?_eq_get hlt
    rcases Option.some.inj hfi with rfl
    refine ⟨?_, hlt, ?_⟩
    · show (episodes.get? (((episodes.length : Int) - 1 - (i : Int)).toNat)).isSome = true
      rw [hname]
      rfl
    · show ((episodes.length : Int) - 1 - (i : Int)).toNat = episodes.length - 1 - i
      omega
  · rw [if_neg hg] at hfi
    exact absurd hfi (by simp)

theorem ascendingItems_get? (start : Nat) (l : List String) :
    ∀ (idx0 j : Nat),
      (ascendingItems start l idx0).get? j =
        (l.get? j).map (fun name =>
          { name := some name, displayIndex := start + (idx0 + j),
            actualIndex := start + (idx0 + j) }) := by
  induction l with
  | nil => intro idx0 j; simp [ascendingItems]
  | cons a l ih =>
      intro idx0 j
      cases j with
      | zero => simp [ascendingItems]
      | succ j =>
          have harith : idx0 + (j + 1) = idx0 + 1 + j := by omega
          simp only [ascendingItems, List.get?, harith]
          exact ih (idx0 + 1) j

theorem mem_ascendingItems {start idx0 : Nat} {l : List String} {x : EpisodeItem}
    (hx : x ∈ ascendingItems start l idx0) :
    ∃ j name, l.get? j = some name ∧
      x = { name := some name, displayIndex := start + (idx0 + j),
            actualIndex := start + (idx0 + j) } := by
  rcases List.mem_iff_get?.mp hx with ⟨j, hj⟩
  rw [ascendingItems_get? start l idx0 j] at hj
  cases hget : l.get? j with
  | none => rw [hget] at hj; simp at hj
  | some name =>
      rw [hget] at hj
      simp only [Option.map_some'] at hj
      exact ⟨j, name, hget, (Option.some.inj hj).symm⟩

theorem mem_currentPageEpisodes_asc {episodes : List String} {start stop : Nat}
    {x : EpisodeItem} (hx : x ∈ currentPageEpisodes episodes false start stop) :
    x.name.isSome = true ∧ x.actualIndex < episodes.length ∧
      x.actualIndex = x.displayIndex := by
  unfold currentPageEpisodes at hx
  simp only [if_false, Bool.false_eq_true] at hx
  rcases mem_ascendingItems hx with ⟨j, name, hget, rfl⟩
  have hj : j < ((episodes.drop start).take (stop + 1 - start)).length := by
    by_contra hge
    rw [List.get?_eq_none.mpr (by omega)] at hget
    exact absurd hget (by simp)
  have hlen : ((episodes.drop start).take (stop + 1 - start)).length =
      min (stop + 1 - start) (episodes.length - start) := by
    simp [List.length_take, List.length_drop]
  refine ⟨by simp, ?_, rfl⟩
  simp only []
  omega

theorem pageRangesAux_eq (total p : Nat) (rev : Bool) (hp : 0 < p) (i : Nat) :
    pageRangesAux total p rev i =
      (List.range' i ((total - i + p - 1) / p) p).map (pageRangeAt total p rev) := by
  rw [pageRangesAux]
  by_cases h : i < total
  · have hrec := pageRangesAux_eq total p rev hp (i + p)
    rw [dif_pos ⟨h, hp⟩, hrec]
    have hcount : (total - i + p - 1) / p = (total - (i + p) + p - 1) / p + 1 := by
      by_cases hle : total - i ≤ p
      · have h1 : total - (i + p) = 0 := by omega
        have h2 : (0 + p - 1) / p = 0 := Nat.div_eq_of_lt (by omega)
        rw [h1, h2]
        simpa using @Nat.div_eq_of_lt_le 1 p (total - i + p - 1) (by omega) (by omega)
      · have h3 : total - i + p - 1 = (total - (i + p) + p - 1) + p := by omega
        rw [h3, Nat.add_div_right _ hp]
    rw [hcount, List.range'_succ, List.map_cons]
  · rw [dif_neg (by omega)]
    have h0 : total - i = 0 := by omega
    have h1 : (0 + p - 1) / p = 0 := Nat.div_eq_of_lt (by omega)
    rw [h0, h1]
    rfl
termination_by total - i
decreasing_by omega

theorem pageRanges_eq (total p : Nat) (rev : Bool) (hp : 0 < p) :
    pageRanges total p rev =
      (List.range' 0 ((total + p - 1) / p) p).map (pageRangeAt total p rev) := by
  unfold pageRanges
  by_cases h0 : total = 0
  · rw [if_pos h0, h0]
    have : (0 + p - 1) / p = 0 := Nat.div_eq_of_lt (by omega)
    rw [this]
    rfl
  · rw [if_neg h0, pageRangesAux_eq total p rev hp 0, Nat.sub_zero]

theorem pageRanges_cover {total p : Nat} {rev : Bool} (hp : 0 < p)
    {d : Nat} (hd : d < total) :
    ∃ r ∈ pageRanges total p rev, r.start ≤ d ∧ d ≤ r.stop := by
  refine ⟨pageRangeAt total p rev (p * (d / p)), ?_, ?_, ?_⟩
  · rw [pageRanges_eq total p rev hp]
    refine List.mem_map.mpr ⟨p * (d / p), ?_, rfl⟩
    refine List.mem_range'.mpr ⟨d / p, ?_, by omega⟩
    have h1 : total + p - 1 = (total - 1) + p := by omega
    rw [h1, Nat.add_div_right _ hp]
    have h2 : d / p ≤ (total - 1) / p := Nat.div_le_div_right (by omega)
    omega
  · show p * (d / p) ≤ d
    exact Nat.mul_div_le d p
  · show d ≤ min (p * (d / p) + p - 1) (total - 1)
    have hmod := Nat.div_add_mod d p
    have hmlt : d % p < p := Nat.mod_lt _ hp
    have hlt : d < p * (d / p) + p := by omega
    omega

/-! ## Pagination claims -/

/-- C4: for every `total > 0`, order and `displayIndex < total`,
`ActualIndexFromDisplayIndex` equals `total - 1 - displayIndex` when
descending and `displayIndex` otherwise, and this value is exactly the
`actualIndex` field that `currentPageEpisodes` emits for the item whose
`displayIndex` field equals that display index, for any page range
containing it. -/
theorem C4_pagination_inverse :
    ∀ (episodes : List String) (isReversed : Bool) (d start stop : Nat),
      0 < episodes.length → d < episodes.length →
      (actualIndexFromDisplayIndex d isReversed episodes.length =
        if isReversed then episodes.length - 1 - d else d) ∧
      (start ≤ d → d ≤ stop →
        ∃ x ∈ currentPageEpisodes episodes isReversed start stop,
          x.displayIndex = d ∧
          x.actualIndex = actualIndexFromDisplayIndex d isReversed episodes.length) ∧
      (∀ x ∈ currentPageEpisodes episodes isReversed start stop,
        x.displayIndex = d →
        x.actualIndex = actualIndexFromDisplayIndex d isReversed episodes.length) := by
  intro episodes rev d start stop hlen hd
  refine ⟨rfl, ?_, ?_⟩
  · intro h1 h2
    cases rev with
    | true =>
        refine ⟨{ name := episodes.get? (episodes.length - 1 - d), displayIndex := d,
                  actualIndex := episodes.length - 1 - d }, ?_, rfl, rfl⟩
        unfold currentPageEpisodes
        simp only [if_true]
        apply List.mem_filterMap.mpr
        refine ⟨d, List.mem_range'_1.mpr ⟨h1, by omega⟩, ?_⟩
        have hg : (0 : Int) ≤ (episodes.length : Int) - 1 - (d : Int) ∧
            (episodes.length : Int) - 1 - (d : Int) < (episodes.length : Int) := by
          constructor <;> omega
        rw [if_pos hg]
        have ht : ((episodes.length : Int) - 1 - (d : Int)).toNat =
            episodes.length - 1 - d := by omega
        rw [ht]
    | false =>
        have hj : ((episodes.drop start).take (stop + 1 - start)).get? (d - start) =
            episodes.get? d := by
          rw [List.get?_take (by omega), List.get?_drop]
          congr 1
          omega
        have hdd : episodes.get? d = some (episodes.get ⟨d, hd⟩) :=
          List.get?_eq_get hd
        have hobj := ascendingItems_get? start
          ((episodes.drop start).take (stop + 1 - start)) 0 (d - start)
        rw [hj, hdd] at hobj
        simp only [Option.map_some'] at hobj
        have harith : start + (0 + (d - start)) = d := by omega
        rw [harith] at hobj
        have hcpe : currentPageEpisodes episodes false start stop =
            ascendingItems start ((episodes.drop start).take (stop + 1 - start)) 0 := rfl
        exact ⟨_, hcpe ▸ List.get?_mem hobj, rfl, rfl⟩
  · intro x hx hdisp
    cases rev with
    | true =>
        simpa [actualIndexFromDisplayIndex, hdisp] using
          (mem_currentPageEpisodes_desc hx).2.2
    | false =>
        simpa [actualIndexFromDisplayIndex, hdisp] using
          (mem_currentPageEpisodes_asc hx).2.2

/-- Concrete instantiation of `C4_pagination_inverse` at a two-episode list,
descending order, display index 1 in the range `[0, 1]`. -/
theorem C4_witness :
    actualIndexFromDisplayIndex 1 true (["a", "b"] : List String).length =
      (if true then (["a", "b"] : List String).length - 1 - 1 else 1) ∧
    ∃ x ∈ currentPageEpisodes ["a", "b"] true 0 1,
      x.displayIndex = 1 ∧
      x.actualIndex = actualIndexFromDisplayIndex 1 true (["a", "b"] : List String).length :=
  ⟨(C4_pagination_inverse ["a", "b"] true 1 0 1 (by decide) (by decide)).1,
   (C4_pagination_inverse ["a", "b"] true 1 0 1 (by decide) (by decide)).2.1
     (by decide) (by decide)⟩

/-- C5: with descending order, `currentPageEpisodes` emits for each display
index `i` of the selected window, in ascending `i` order, the tuple
`{name := episodes[total-1-i], displayIndex := i, actualIndex := total-1-i}`;
in particular for `total = 10`, `episodesPerPage = 100` there is exactly one
page range `("10-1", "0-9")`, the first rendered item is actual index 9
(display index 0) and the last is actual index 0 (display index 9). -/
theorem C5_descending_page :
    (∀ (episodes : List String) (start stop : Nat), stop < episodes.length →
      currentPageEpisodes episodes true start stop =
        (List.range' start (stop + 1 - start)).map (fun i =>
          { name := episodes.get? (episodes.length - 1 - i)
            displayIndex := i
            actualIndex := episodes.length - 1 - i })) ∧
    pageRanges 10 100 true = [⟨"10-1", "0-9", 0, 9⟩] ∧
    (currentPageEpisodes ["e1", "e2", "e3", "e4", "e5", "e6", "e7", "e8", "e9", "e10"]
        true 0 9).head? = some ⟨some "e10", 0, 9⟩ ∧
    (currentPageEpisodes ["e1", "e2", "e3", "e4", "e5", "e6", "e7", "e8", "e9", "e10"]
        true 0 9).getLast? = some ⟨some "e1", 9, 0⟩ := by
  refine ⟨fun episodes start stop h => currentPageEpisodes_desc_eq episodes start stop h,
    ?_, by decide, by decide⟩
  simp [pageRanges, pageRangesAux, pageRangeAt]
  decide

/-- Concrete instantiation of the universally quantified part of
`C5_descending_page` at a three-episode list and the window `[0, 2]`. -/
theorem C5_witness :
    currentPageEpisodes ["x", "y", "z"] true 0 2 =
      (List.range' 0 (2 + 1 - 0)).map (fun i =>
        { name := (["x", "y", "z"] : List String).get? ((["x", "y", "z"] : List String).length - 1 - i)
          displayIndex := i
          actualIndex := (["x", "y", "z"] : List String).length - 1 - i }) :=
  C5_descending_page.1 ["x", "y", "z"] 0 2 (by decide)

/-- C6: for `episodesPerPage ≥ 1`, `pageRanges` partitions the display-index
space `[0, total)` into contiguous windows of size `episodesPerPage` (the
last truncated), each window at start `s` carrying stop
`min (s + episodesPerPage - 1) (total - 1)`, value `"start-end"` and the
ascending/descending labels; zero episodes give no ranges; and
`total = 25, episodesPerPage = 10`, ascending, gives exactly the three
ranges `("1-10","0-9"), ("11-20","10-19"), ("21-25","20-24")`. -/
theorem C6_page_ranges_partition :
    (∀ (total p : Nat) (rev : Bool), 1 ≤ p →
      pageRanges total p rev =
        (List.range' 0 ((total + p - 1) / p) p).map (pageRangeAt total p rev) ∧
      (∀ d, d < total → ∃ r ∈ pageRanges total p rev, r.start ≤ d ∧ d ≤ r.stop) ∧
      pageRanges 0 p rev = []) ∧
    pageRanges 25 10 false =
      [⟨"1-10", "0-9", 0, 9⟩, ⟨"11-20", "10-19", 10, 19⟩, ⟨"21-25", "20-24", 20, 24⟩] := by
  refine ⟨fun total p rev hp =>
    ⟨pageRanges_eq total p rev hp, fun d hd => pageRanges_cover hp hd,
     by simp [pageRanges]⟩, ?_⟩
  simp [pageRanges, pageRangesAux, pageRangeAt]
  decide

/-- Concrete instantiation of `C6_page_ranges_partition` at
`total = 7, episodesPerPage = 3`. -/
theorem C6_witness :
    pageRanges 7 3 true =
      (List.range' 0 ((7 + 3 - 1) / 3) 3).map (pageRangeAt 7 3 true) ∧
    pageRanges 0 3 true = [] :=
  ⟨(C6_page_ranges_partition.1 7 3 true (by decide)).1,
   (C6_page_ranges_partition.1 7 3 true (by decide)).2.2⟩

/-- C8: the `setCurrentPageRange` effect always resolves to the value of some
existing range — the first range whenever no range contains the selected
episode's display index (stale or out-of-range selection, fail-soft, no
throw) — and `currentPageEpisodes` never reads the episode list out of
bounds: every emitted item has a defined name and an in-bounds
`actualIndex`, for arbitrary range bounds. -/
theorem C8_fail_soft :
    (∀ (ranges : List PageRange) (r0 : PageRange) (rest : List PageRange)
        (total sel : Nat) (rev : Bool), ranges = r0 :: rest →
      (∃ r ∈ ranges, resolveCurrentPageRange ranges total sel rev = some r.value) ∧
      ((∀ r ∈ ranges,
          ¬((r.start : Int) ≤ (if rev then (total : Int) - 1 - (sel : Int) else (sel : Int)) ∧
            (if rev then (total : Int) - 1 - (sel : Int) else (sel : Int)) ≤ (r.stop : Int))) →
        resolveCurrentPageRange ranges total sel rev = some r0.value)) ∧
    (∀ (episodes : List String) (rev : Bool) (start stop : Nat),
      ∀ x ∈ currentPageEpisodes episodes rev start stop,
        x.name.isSome = true ∧ x.actualIndex < episodes.length) := by
  constructor
  · intro ranges r0 rest total sel rev hr
    subst hr
    constructor
    · cases hf : (r0 :: rest).find? (fun r =>
          decide ((r.start : Int) ≤ (if rev then (total : Int) - 1 - (sel : Int) else (sel : Int)) ∧
            (if rev then (total : Int) - 1 - (sel : Int) else (sel : Int)) ≤ (r.stop : Int))) with
      | none =>
          exact ⟨r0, List.mem_cons_self r0 rest,
            by simp only [resolveCurrentPageRange]; rw [hf]⟩
      | some r =>
          exact ⟨r, List.mem_of_find?_eq_some hf,
            by simp only [resolveCurrentPageRange]; rw [hf]⟩
    · intro hnone
      have hf : (r0 :: rest).find? (fun r =>
          decide ((r.start : Int) ≤ (if rev then (total : Int) - 1 - (sel : Int) else (sel : Int)) ∧
            (if rev then (total : Int) - 1 - (sel : Int) else (sel : Int)) ≤ (r.stop : Int))) = none :=
        List.find?_eq_none.mpr (fun r hr => by simpa using hnone r hr)
      simp only [resolveCurrentPageRange]
      rw [hf]
  · intro episodes rev start stop x hx
    cases rev with
    | true =>
        exact ⟨(mem_currentPageEpisodes_desc hx).1, (mem_currentPageEpisodes_desc hx).2.1⟩
    | false =>
        exact ⟨(mem_currentPageEpisodes_asc hx).1, (mem_currentPageEpisodes_asc hx).2.1⟩

/-- Concrete instantiation of `C8_fail_soft`: a stale selection (episode 40
of 3) resolves to the first range, and a concrete emitted item is in
bounds. -/
theorem C8_witness :
    resolveCurrentPageRange [⟨"1-3", "0-2", 0, 2⟩] 3 40 false = some "0-2" ∧
    ((⟨some "a", 0, 0⟩ : EpisodeItem).name.isSome = true ∧
      (⟨some "a", 0, 0⟩ : EpisodeItem).actualIndex < (["a"] : List String).length) :=
  ⟨(C8_fail_soft.1 [⟨"1-3", "0-2", 0, 2⟩] ⟨"1-3", "0-2", 0, 2⟩ [] 3 40 false rfl).2
     (by decide),
   C8_fail_soft.2 ["a"] true 0 0 ⟨some "a", 0, 0⟩ (by decide)⟩

/-! ## Cache expiry lemmas -/

theorem keys_nodup_of_sublist {c c' : Cache} (h : c.Sublist c')
    (hnd : (c'.map Prod.fst).Nodup) : (c.map Prod.fst).Nodup :=
  (h.map Prod.fst).nodup hnd

theorem cleanExpired_foldl (now : Nat) :
    ∀ (ks : List String) (acc : Cache), ks.Nodup → (acc.map Prod.fst).Nodup →
      ks.foldl (fun acc key =>
        match lookupEntry key acc with
        | some cached =>
            if CACHE_EXPIRY_TIME < now - cached.timestamp then eraseEntry key acc
            else acc
        | none => acc) acc =
      acc.filter (fun p =>
        !(decide (p.1 ∈ ks) && decide (CACHE_EXPIRY_TIME < now - p.2.timestamp))) := by
  intro ks
  induction ks with
  | nil =>
      intro acc _ _
      simp
  | cons k ks ih =>
      intro acc hks hnd
      rw [List.foldl_cons]
      rcases List.nodup_cons.mp hks with ⟨hkks, hks'⟩
      cases hlk : lookupEntry k acc with
      | none =>
          have hkmem : k ∉ acc.map Prod.fst := (lookupEntry_eq_none_iff k acc).mp hlk
          simp only [hlk]
          rw [ih acc hks' hnd]
          apply List.filter_congr
          intro p hp
          have hne : p.1 ≠ k := fun hh =>
            hkmem (hh ▸ List.mem_map.mpr ⟨p, hp, rfl⟩)
          simp [List.mem_cons, hne]
      | some e =>
          by_cases hexp : CACHE_EXPIRY_TIME < now - e.timestamp
          · simp only [hlk, if_pos hexp]
            have herase : eraseEntry k acc = acc.filter (fun p => !(p.1 == k)) :=
              eraseEntry_eq_filter hnd k
            have hnd' : ((eraseEntry k acc).map Prod.fst).Nodup :=
              keys_nodup_of_sublist (eraseEntry_sublist k acc) hnd
            rw [ih (eraseEntry k acc) hks' hnd', herase, List.filter_filter]
            apply List.filter_congr
            intro p hp
            by_cases hpk : p.1 = k
            · have hpe : p.2 = e := by
                have := lookupEntry_of_mem_nodup hnd
                  (show (k, p.2) ∈ acc from hpk ▸ hp)
                rw [hlk] at this
                exact (Option.some.inj this).symm
              simp [hpk, hpe, hexp]
            · simp [List.mem_cons, hpk]
          · simp only [hlk, if_neg hexp]
            rw [ih acc hks' hnd]
            apply List.filter_congr
            intro p hp
            by_cases hpk : p.1 = k
            · have hpe : p.2 = e := by
                have := lookupEntry_of_mem_nodup hnd
                  (show (k, p.2) ∈ acc from hpk ▸ hp)
                rw [hlk] at this
                exact (Option.some.inj this).symm
              simp [hpk, hpe, hexp]
            · simp [List.mem_cons, hpk]

theorem cleanExpiredCache_eq_filter (now : Nat) {c : Cache}
    (hnd : (c.map Prod.fst).Nodup) :
    cleanExpiredCache now c =
      c.filter (fun p => now - p.2.timestamp ≤ CACHE_EXPIRY_TIME) := by
  unfold cleanExpiredCache
  rw [cleanExpired_foldl now (c.map Prod.fst) c hnd hnd]
  apply List.filter_congr
  intro p hp
  have hm : p.1 ∈ c.map Prod.fst := List.mem_map.mpr ⟨p, hp, rfl⟩
  by_cases hle : now - p.2.timestamp ≤ CACHE_EXPIRY_TIME
  · simp [hm, hle, Nat.not_lt.mpr hle]
  · have hlt : CACHE_EXPIRY_TIME < now - p.2.timestamp := by omega
    simp [hm, hle, hlt]

/-! ## Cache read / expiry claims -/

/-- C3: `getCachedResults` misses on an absent key; on an entry older than
24 h it deletes the entry (which is then also gone from every later
`cleanExpiredCache` sweep) and misses; otherwise it returns the live entry
unchanged.  `cleanExpiredCache` removes exactly the entries whose age
exceeds 24 h and leaves all others unchanged (it equals a filter keeping
the fresh entries, in order). -/
theorem C3_get_expiry :
    (∀ (now : Nat) (q : String) (st : SearchStoreState),
      lookupEntry q st.searchResultsCache = none →
      getCachedResults now q st = (none, st)) ∧
    (∀ (now : Nat) (q : String) (st : SearchStoreState) (e : SearchCacheItem),
      (st.searchResultsCache.map Prod.fst).Nodup →
      lookupEntry q st.searchResultsCache = some e →
      CACHE_EXPIRY_TIME < now - e.timestamp →
      getCachedResults now q st =
        (none, { st with searchResultsCache := eraseEntry q st.searchResultsCache }) ∧
      lookupEntry q (eraseEntry q st.searchResultsCache) = none ∧
      (∀ now2, lookupEntry q
        (cleanExpiredCache now2 (eraseEntry q st.searchResultsCache)) = none)) ∧
    (∀ (now : Nat) (q : String) (st : SearchStoreState) (e : SearchCacheItem),
      lookupEntry q st.searchResultsCache = some e →
      now - e.timestamp ≤ CACHE_EXPIRY_TIME →
      getCachedResults now q st = (some e, st)) ∧
    (∀ (now : Nat) (c : Cache), (c.map Prod.fst).Nodup →
      cleanExpiredCache now c =
        c.filter (fun p => now - p.2.timestamp ≤ CACHE_EXPIRY_TIME)) := by
  refine ⟨?_, ?_, ?_, fun now c hnd => cleanExpiredCache_eq_filter now hnd⟩
  · intro now q st h
    unfold getCachedResults
    rw [h]
  · intro now q st e hnd h hexp
    have hnone : lookupEntry q (eraseEntry q st.searchResultsCache) = none :=
      lookupEntry_eraseEntry_self hnd q
    refine ⟨?_, hnone, ?_⟩
    · unfold getCachedResults
      simp only [h]
      rw [if_pos hexp]
    · intro now2
      have hnd' : ((eraseEntry q st.searchResultsCache).map Prod.fst).Nodup :=
        keys_nodup_of_sublist (eraseEntry_sublist q st.searchResultsCache) hnd
      rw [cleanExpiredCache_eq_filter now2 hnd']
      exact lookupEntry_filter_none hnone _
  · intro now q st e h hfresh
    unfold getCachedResults
    simp only [h]
    rw [if_neg (by omega)]

/-- Concrete instantiation of `C3_get_expiry`: one live and one expired
entry. -/
theorem C3_witness :
    getCachedResults (CACHE_EXPIRY_TIME + 2) "q"
        ⟨"", [], [("q", ⟨[], [], false, 1⟩)]⟩ =
      (none, ⟨"", [], []⟩) ∧
    getCachedResults 5 "q" ⟨"", [], [("q", ⟨[], [], false, 1⟩)]⟩ =
      (some ⟨[], [], false, 1⟩, ⟨"", [], [("q", ⟨[], [], false, 1⟩)]⟩) :=
  ⟨(C3_get_expiry.2.1 (CACHE_EXPIRY_TIME + 2) "q"
      ⟨"", [], [("q", ⟨[], [], false, 1⟩)]⟩ ⟨[], [], false, 1⟩
      (by decide) (by decide) (by decide)).1,
   C3_get_expiry.2.2.1 5 "q" ⟨"", [], [("q", ⟨[], [], false, 1⟩)]⟩
      ⟨[], [], false, 1⟩ (by decide) (by decide)⟩

/-- C10 (implicit frame property): a `getCachedResults` call that hits a
live (non-expired) entry mutates nothing — the returned state is the input
state, so the query string, the search history, the whole cache, and in
particular the entry's `timestamp` are untouched; reads refresh neither
expiry nor eviction priority. -/
theorem C10_get_frame :
    ∀ (now : Nat) (q : String) (st : SearchStoreState) (e : SearchCacheItem),
      lookupEntry q st.searchResultsCache = some e →
      now - e.timestamp ≤ CACHE_EXPIRY_TIME →
      getCachedResults now q st = (some e, st) ∧
      (getCachedResults now q st).2.query = st.query ∧
      (getCachedResults now q st).2.searchHistory = st.searchHistory ∧
      (getCachedResults now q st).2.searchResultsCache = st.searchResultsCache := by
  intro now q st e h hfresh
  have hmain : getCachedResults now q st = (some e, st) := by
    unfold getCachedResults
    simp only [h]
    rw [if_neg (by omega)]
  rw [hmain]
  exact ⟨rfl, rfl, rfl, rfl⟩

/-- Concrete instantiation of `C10_get_frame`: a live entry read back with
the state bit-for-bit unchanged. -/
theorem C10_witness :
    getCachedResults 5 "q" ⟨"qq", [], [("q", ⟨[], ["a"], true, 3⟩)]⟩ =
      (some ⟨[], ["a"], true, 3⟩, ⟨"qq", [], [("q", ⟨[], ["a"], true, 3⟩)]⟩) :=
  (C10_get_frame 5 "q" ⟨"qq", [], [("q", ⟨[], ["a"], true, 3⟩)]⟩
    ⟨[], ["a"], true, 3⟩ (by decide) (by decide)).1

/-! ## Deduplication lemmas -/

theorem dedupResultsAux_congr_seen {s s' : List String}
    (hss : ∀ a, a ∈ s ↔ a ∈ s') :
    ∀ l : List VideoItem, dedupResultsAux s l = dedupResultsAux s' l := by
  intro l
  induction l generalizing s s' with
  | nil => rfl
  | cons x xs ih =>
      by_cases hx : dedupKey x ∈ s
      · rw [dedupResultsAux, dedupResultsAux, if_pos hx, if_pos ((hss _).mp hx)]
        exact ih hss
      · rw [dedupResultsAux, dedupResultsAux, if_neg hx,
          if_neg (fun hmem => hx ((hss _).mpr hmem))]
        exact congrArg (x :: ·) (ih (fun a => by
          simp only [List.mem_cons]
          exact or_congr Iff.rfl (hss a)))

theorem dedupResultsAux_cons_seen (k : String) :
    ∀ (l : List VideoItem) (s : List String),
      dedupResultsAux (k :: s) l =
        dedupResultsAux s (l.filter (fun y => !(dedupKey y == k))) := by
  intro l
  induction l with
  | nil => intro s; rfl
  | cons x xs ih =>
      intro s
      by_cases hxk : dedupKey x = k
      · have hmem : dedupKey x ∈ k :: s := by simp [hxk]
        rw [dedupResultsAux, if_pos hmem]
        have : (x :: xs).filter (fun y => !(dedupKey y == k)) =
            xs.filter (fun y => !(dedupKey y == k)) := by
          simp [List.filter_cons, hxk]
        rw [this]
        exact ih s
      · have hkeep : (x :: xs).filter (fun y => !(dedupKey y == k)) =
            x :: xs.filter (fun y => !(dedupKey y == k)) := by
          simp [List.filter_cons, hxk]
        rw [hkeep]
        by_cases hxs : dedupKey x ∈ s
        · have hmem : dedupKey x ∈ k :: s := by simp [hxs]
          rw [dedupResultsAux, if_pos hmem, dedupResultsAux, if_pos hxs]
          exact ih s
        · have hmem : dedupKey x ∉ k :: s := by simp [hxk, hxs]
          rw [dedupResultsAux, if_neg hmem, dedupResultsAux, if_neg hxs]
          refine congrArg (x :: ·) ?_
          rw [dedupResultsAux_congr_seen
            (show ∀ a, a ∈ dedupKey x :: k :: s ↔ a ∈ k :: dedupKey x :: s by
              intro a; simp [List.mem_cons]; tauto) xs]
          exact ih (dedupKey x :: s)

theorem uniqueResults_eq_dedupFirstSpec : ∀ l, uniqueResults l = dedupFirstSpec l
  | [] => by rw [dedupFirstSpec]; rfl
  | x :: xs => by
      rw [dedupFirstSpec]
      unfold uniqueResults
      rw [dedupResultsAux, if_neg (by simp)]
      rw [dedupResultsAux_cons_seen (dedupKey x) xs []]
      exact congrArg (x :: ·)
        (uniqueResults_eq_dedupFirstSpec (xs.filter (fun y => !(dedupKey y == dedupKey x))))
termination_by l => l.length
decreasing_by
  simp only [List.length_cons]
  exact Nat.lt_succ_of_le (List.length_filter_le _ _)

theorem mem_keys_dedupResultsAux :
    ∀ (l : List VideoItem) (s : List String) (k : String),
      k ∈ (dedupResultsAux s l).map dedupKey ↔
        (k ∈ l.map dedupKey ∧ k ∉ s) := by
  intro l
  induction l with
  | nil => intro s k; simp [dedupResultsAux]
  | cons x xs ih =>
      intro s k
      by_cases hx : dedupKey x ∈ s
      · rw [dedupResultsAux, if_pos hx, ih]
        simp only [List.map_cons, List.mem_cons]
        constructor
        · rintro ⟨hk, hks⟩
          exact ⟨Or.inr hk, hks⟩
        · rintro ⟨hk | hk, hks⟩
          · exact absurd (hk ▸ hx) hks
          · exact ⟨hk, hks⟩
      · rw [dedupResultsAux, if_neg hx]
        simp only [List.map_cons, List.mem_cons, ih]
        constructor
        · rintro (hk | ⟨hk, hks⟩)
          · exact ⟨Or.inl hk, hk ▸ hx⟩
          · simp only [List.mem_cons, not_or] at hks
            exact ⟨Or.inr hk, hks.2⟩
        · rintro ⟨hk | hk, hks⟩
          · exact Or.inl hk
          · by_cases hkx : k = dedupKey x
            · exact Or.inl hkx
            · exact Or.inr ⟨hk, by simp [hkx, hks]⟩

theorem dedupResultsAux_keys_nodup :
    ∀ (l : List VideoItem) (s : List String),
      ((dedupResultsAux s l).map dedupKey).Nodup := by
  intro l
  induction l with
  | nil => intro s; simp [dedupResultsAux]
  | cons x xs ih =>
      intro s
      by_cases hx : dedupKey x ∈ s
      · rw [dedupResultsAux, if_pos hx]
        exact ih s
      · rw [dedupResultsAux, if_neg hx]
        simp only [List.map_cons, List.nodup_cons]
        refine ⟨fun hmem => ?_, ih (dedupKey x :: s)⟩
        exact ((mem_keys_dedupResultsAux xs (dedupKey x :: s) (dedupKey x)).mp hmem).2
          (by simp)

theorem dedupResultsAux_nil_of_seen :
    ∀ (rs : List VideoItem) (s : List String),
      (∀ y ∈ rs, dedupKey y ∈ s) → dedupResultsAux s rs = [] := by
  intro rs
  induction rs with
  | nil => intro s _; rfl
  | cons y ys ih =>
      intro s h
      rw [dedupResultsAux, if_pos (h y (by simp))]
      exact ih s (fun y hy => h y (by simp [hy]))

theorem dedupResultsAux_append_absorb :
    ∀ (l rs : List VideoItem) (s : List String),
      ((l.map dedupKey).Nodup) →
      (∀ k ∈ l.map dedupKey, k ∉ s) →
      (∀ y ∈ rs, dedupKey y ∈ s ∨ dedupKey y ∈ l.map dedupKey) →
      dedupResultsAux s (l ++ rs) = l := by
  intro l
  induction l with
  | nil =>
      intro rs s _ _ hrs
      exact dedupResultsAux_nil_of_seen rs s (fun y hy => by
        rcases hrs y hy with h | h
        · exact h
        · simp at h)
  | cons x xs ih =>
      intro rs s hnd hdisj hrs
      simp only [List.map_cons, List.nodup_cons] at hnd
      have hx : dedupKey x ∉ s := hdisj _ (by simp)
      rw [List.cons_append, dedupResultsAux, if_neg hx]
      refine congrArg (x :: ·) (ih rs (dedupKey x :: s) hnd.2 ?_ ?_)
      · intro k hk
        simp only [List.mem_cons, not_or]
        exact ⟨fun hkx => hnd.1 (hkx ▸ hk), hdisj k (by simp [hk])⟩
      · intro y hy
        rcases hrs y hy with h | h
        · exact Or.inl (by simp [h])
        · simp only [List.map_cons, List.mem_cons] at h
          rcases h with h' | h'
          · exact Or.inl (by simp [h'])
          · exact Or.inr h'

theorem mem_dedupStrings :
    ∀ (l s : List String) (x : String),
      x ∈ dedupStrings s l ↔ (x ∈ l ∧ x ∉ s) := by
  intro l
  induction l with
  | nil => intro s x; simp [dedupStrings]
  | cons a l ih =>
      intro s x
      by_cases ha : a ∈ s
      · rw [dedupStrings, if_pos ha, ih]
        simp only [List.mem_cons]
        constructor
        · rintro ⟨hx, hxs⟩
          exact ⟨Or.inr hx, hxs⟩
        · rintro ⟨hx | hx, hxs⟩
          · exact absurd (hx ▸ ha) hxs
          · exact ⟨hx, hxs⟩
      · rw [dedupStrings, if_neg ha]
        simp only [List.mem_cons, ih]
        constructor
        · rintro (hx | ⟨hx, hxs⟩)
          · exact ⟨Or.inl hx, hx ▸ ha⟩
          · simp only [List.mem_cons, not_or] at hxs
            exact ⟨Or.inr hx, hxs.2⟩
        · rintro ⟨hx | hx, hxs⟩
          · exact Or.inl hx
          · by_cases hxa : x = a
            · exact Or.inl hxa
            · exact Or.inr ⟨hx, by simp [hxa, hxs]⟩

/-! ## Update-branch lemmas -/

theorem updateCachedResults_existing {now : Nat} {q : String}
    {rs : List VideoItem} {ids : List String} {b : Bool} {c : Cache}
    {e : SearchCacheItem} (h : lookupEntry q c = some e) :
    updateCachedResults now q rs ids b c =
      setEntry q ⟨uniqueResults (e.results ++ rs),
        dedupStrings [] (e.completedApiIds ++ ids), b || e.isComplete, now⟩ c := by
  unfold updateCachedResults
  simp only [h]

theorem updateCachedResults_fresh {now : Nat} {q : String}
    {rs : List VideoItem} {ids : List String} {b : Bool} {c : Cache}
    (h : lookupEntry q c = none) :
    updateCachedResults now q rs ids b c =
      setEntry q ⟨rs, ids, b, now⟩
        (if MAX_CACHE_SIZE ≤ c.length then
          match findOldestKey now c with
          | some oldestKey => if oldestKey = "" then c else eraseEntry oldestKey c
          | none => c
        else c) := by
  unfold updateCachedResults
  simp only [h]

theorem lookup_other_after_fresh_update (now : Nat) (rs : List VideoItem)
    (ids : List String) (b : Bool) {q2 q : String} {c : Cache}
    (hnd : (c.map Prod.fst).Nodup) (hne : q ≠ q2)
    (hfresh : lookupEntry q2 c = none) :
    lookupEntry q (updateCachedResults now q2 rs ids b c) = lookupEntry q c ∨
    lookupEntry q (updateCachedResults now q2 rs ids b c) = none := by
  rw [updateCachedResults_fresh hfresh, lookupEntry_setEntry_ne hne]
  by_cases hcap : MAX_CACHE_SIZE ≤ c.length
  · rw [if_pos hcap]
    cases hfind : findOldestKey now c with
    | none => exact Or.inl rfl
    | some k =>
        simp only []
        by_cases hke : k = ""
        · rw [if_pos hke]
          exact Or.inl rfl
        · rw [if_neg hke]
          by_cases hkq : q = k
          · subst hkq
            exact Or.inr (lookupEntry_eraseEntry_self hnd q)
          · exact Or.inl (lookupEntry_eraseEntry_ne hkq c)
  · rw [if_neg hcap]
    exact Or.inl rfl

/-! ## Merge claims -/

/-- C1 (amended): when an entry exists, `updateCachedResults` sets `results`
to the concatenation of existing then new results deduplicated by the string
key `source_code ++ "_" ++ vod_id` keeping the first-seen occurrence (this
coincides with deduplication by the pair except when distinct pairs collide
on that joined string), `completedApiIds` to the set union, `isComplete` to
the disjunction (so a single update never turns a true flag false), and
refreshes `timestamp` to the call time; Scenario D holds verbatim. -/
theorem C1_update_existing_merge :
    (∀ (now : Nat) (q : String) (rs : List VideoItem) (ids : List String)
        (b : Bool) (c : Cache) (e : SearchCacheItem),
      lookupEntry q c = some e →
      ∃ e', lookupEntry q (updateCachedResults now q rs ids b c) = some e' ∧
        e'.results = dedupFirstSpec (e.results ++ rs) ∧
        (∀ s, s ∈ e'.completedApiIds ↔ (s ∈ e.completedApiIds ∨ s ∈ ids)) ∧
        e'.isComplete = (e.isComplete || b) ∧
        e'.timestamp = now) ∧
    (∀ (now : Nat) (q2 q : String) (rs : List VideoItem) (ids : List String)
        (b : Bool) (c : Cache) (e : SearchCacheItem),
      (c.map Prod.fst).Nodup →
      lookupEntry q c = some e → e.isComplete = true →
      lookupEntry q (updateCachedResults now q2 rs ids b c) = none ∨
      ∃ e', lookupEntry q (updateCachedResults now q2 rs ids b c) = some e' ∧
        e'.isComplete = true) ∧
    lookupEntry "q" (updateCachedResults 2 "q" [⟨"s", "4", "w"⟩, ⟨"s", "3", "z"⟩]
        ["src2"] true
        (updateCachedResults 1 "q" [⟨"a_b", "c", "x"⟩, ⟨"s", "4", "w"⟩]
          ["src1"] false [])) =
      some ⟨[⟨"a_b", "c", "x"⟩, ⟨"s", "4", "w"⟩, ⟨"s", "3", "z"⟩],
        ["src1", "src2"], true, 2⟩ := by
  refine ⟨?_, ?_, by decide⟩
  · intro now q rs ids b c e h
    rw [updateCachedResults_existing h]
    refine ⟨_, lookupEntry_setEntry_self q _ c, ?_, ?_, ?_, rfl⟩
    · exact uniqueResults_eq_dedupFirstSpec (e.results ++ rs)
    · intro s
      rw [show (⟨uniqueResults (e.results ++ rs),
          dedupStrings [] (e.completedApiIds ++ ids), b || e.isComplete, now⟩ :
            SearchCacheItem).completedApiIds =
          dedupStrings [] (e.completedApiIds ++ ids) from rfl,
        mem_dedupStrings]
      simp
    · exact Bool.or_comm b e.isComplete
  · intro now q2 q rs ids b c e hnd h hcomp
    by_cases hq : q2 = q
    · subst hq
      rw [updateCachedResults_existing h]
      exact Or.inr ⟨_, lookupEntry_setEntry_self q2 _ c, by simp [hcomp]⟩
    · cases hl2 : lookupEntry q2 c with
      | some e2 =>
          rw [updateCachedResults_existing hl2]
          rw [lookupEntry_setEntry_ne (fun hh => hq hh.symm)]
          exact Or.inr ⟨e, h, hcomp⟩
      | none =>
          rcases lookup_other_after_fresh_update now rs ids b hnd
            (fun hh => hq hh.symm) hl2 with hcase | hcase
          · rw [hcase, h]
            exact Or.inr ⟨e, rfl, hcomp⟩
          · exact Or.inl hcase

/-- The claim's dedup-by-pair reading of the merge fails on the code: with an
existing result `("a_b", "c")` and incoming `("a", "b_c")` — distinct pairs
whose joined keys collide on `"a_b_c"` — the code drops the new item, while
deduplication by the pair keeps both. -/
theorem C1_counterexample :
    (lookupEntry "q" (updateCachedResults 5 "q" [⟨"a", "b_c", "y"⟩] [] false
        [("q", ⟨[⟨"a_b", "c", "x"⟩], ["s1"], false, 1⟩)])).map (fun e => e.results) =
      some [⟨"a_b", "c", "x"⟩] ∧
    dedupByPairSpec ([⟨"a_b", "c", "x"⟩] ++ [⟨"a", "b_c", "y"⟩]) =
      [⟨"a_b", "c", "x"⟩, ⟨"a", "b_c", "y"⟩] ∧
    ([⟨"a_b", "c", "x"⟩] : List VideoItem) ≠
      [⟨"a_b", "c", "x"⟩, ⟨"a", "b_c", "y"⟩] := by
  refine ⟨by decide, ?_, by decide⟩
  simp [dedupByPairSpec]

/-- Concrete instantiation of `C1_update_existing_merge` on a one-entry
cache. -/
theorem C1_witness :
    ∃ e', lookupEntry "q" (updateCachedResults 7 "q" [⟨"s", "2", "y"⟩] ["s2"] true
        [("q", ⟨[⟨"s", "1", "x"⟩], ["s1"], false, 1⟩)]) = some e' ∧
      e'.results = dedupFirstSpec ([⟨"s", "1", "x"⟩] ++ [⟨"s", "2", "y"⟩]) ∧
      (∀ s, s ∈ e'.completedApiIds ↔ (s ∈ (["s1"] : List String) ∨ s ∈ (["s2"] : List String))) ∧
      e'.isComplete = (false || true) ∧
      e'.timestamp = 7 :=
  C1_update_existing_merge.1 7 "q" [⟨"s", "2", "y"⟩] ["s2"] true
    [("q", ⟨[⟨"s", "1", "x"⟩], ["s1"], false, 1⟩)] ⟨[⟨"s", "1", "x"⟩], ["s1"], false, 1⟩
    (by decide)

theorem results_after_update (now : Nat) (q : String) (rs : List VideoItem)
    (ids : List String) (b : Bool) (c : Cache)
    (hrs : (rs.map dedupKey).Nodup) :
    ∃ e1, lookupEntry q (updateCachedResults now q rs ids b c) = some e1 ∧
      ((e1.results.map dedupKey).Nodup) ∧
      (∀ y ∈ rs, dedupKey y ∈ e1.results.map dedupKey) := by
  cases hl : lookupEntry q c with
  | none =>
      rw [updateCachedResults_fresh hl]
      exact ⟨_, lookupEntry_setEntry_self q _ _, hrs, fun y hy =>
        List.mem_map.mpr ⟨y, hy, rfl⟩⟩
  | some e0 =>
      rw [updateCachedResults_existing hl]
      refine ⟨_, lookupEntry_setEntry_self q _ _, ?_, ?_⟩
      · exact dedupResultsAux_keys_nodup (e0.results ++ rs) []
      · intro y hy
        rw [show (⟨uniqueResults (e0.results ++ rs),
            dedupStrings [] (e0.completedApiIds ++ ids), b || e0.isComplete, now⟩ :
              SearchCacheItem).results = uniqueResults (e0.results ++ rs) from rfl]
        refine (mem_keys_dedupResultsAux (e0.results ++ rs) [] (dedupKey y)).mpr ⟨?_, by simp⟩
        rw [List.map_append]
        exact List.mem_append_right _ (List.mem_map.mpr ⟨y, hy, rfl⟩)

/-- C7 (amended): for `newResults` with pairwise-distinct dedup keys
(`source_code ++ "_" ++ vod_id`), updating the same query twice with the
identical `newResults` — any completed-source sets and flags — leaves the
entry's `results` identical to (hence of the same cardinality as) the
single-update result, and that result contains no two items with the same
`(source_code, vod_id)` pair. -/
theorem C7_dedup_idempotent :
    ∀ (c : Cache) (q : String) (rs : List VideoItem) (ids1 : List String)
      (b1 : Bool) (ids2 : List String) (b2 : Bool) (now1 now2 : Nat),
      (rs.map dedupKey).Nodup →
      ∃ e1 e2,
        lookupEntry q (updateCachedResults now1 q rs ids1 b1 c) = some e1 ∧
        lookupEntry q (updateCachedResults now2 q rs ids2 b2
          (updateCachedResults now1 q rs ids1 b1 c)) = some e2 ∧
        e2.results = e1.results ∧
        e2.results.length = e1.results.length ∧
        e2.results.Pairwise (fun a b =>
          ¬(a.source_code = b.source_code ∧ a.vod_id = b.vod_id)) := by
  intro c q rs ids1 b1 ids2 b2 now1 now2 hrs
  rcases results_after_update now1 q rs ids1 b1 c hrs with ⟨e1, he1, hnd1, hkeys1⟩
  have habsorb : uniqueResults (e1.results ++ rs) = e1.results :=
    dedupResultsAux_append_absorb e1.results rs [] hnd1 (by simp)
      (fun y hy => Or.inr (hkeys1 y hy))
  have hpw : e1.results.Pairwise (fun a b =>
      ¬(a.source_code = b.source_code ∧ a.vod_id = b.vod_id)) :=
    (List.pairwise_map.mp hnd1).imp (fun {a b} hab ⟨hsc, hid⟩ =>
      hab (by simp [dedupKey, hsc, hid]))
  refine ⟨e1,
    ⟨uniqueResults (e1.results ++ rs),
      dedupStrings [] (e1.completedApiIds ++ ids2), b2 || e1.isComplete, now2⟩,
    he1, ?_, ?_, ?_, ?_⟩
  · rw [updateCachedResults_existing he1]
    exact lookupEntry_setEntry_self q _ _
  · exact habsorb
  · rw [show (⟨uniqueResults (e1.results ++ rs),
        dedupStrings [] (e1.completedApiIds ++ ids2), b2 || e1.isComplete, now2⟩ :
          SearchCacheItem).results = uniqueResults (e1.results ++ rs) from rfl,
      habsorb]
  · rw [show (⟨uniqueResults (e1.results ++ rs),
        dedupStrings [] (e1.completedApiIds ++ ids2), b2 || e1.isComplete, now2⟩ :
          SearchCacheItem).results = uniqueResults (e1.results ++ rs) from rfl,
      habsorb]
    exact hpw

/-- The claim fails without the dedup hypothesis: with `newResults`
containing the same item twice against an empty cache, one update stores two
copies while two updates store one — the cardinalities differ. -/
theorem C7_counterexample :
    (lookupEntry "q" (updateCachedResults 1 "q" [⟨"s", "1", "x"⟩, ⟨"s", "1", "x"⟩]
        [] false [])).map (fun e => e.results.length) = some 2 ∧
    (lookupEntry "q" (updateCachedResults 2 "q" [⟨"s", "1", "x"⟩, ⟨"s", "1", "x"⟩]
        [] false (updateCachedResults 1 "q" [⟨"s", "1", "x"⟩, ⟨"s", "1", "x"⟩]
          [] false []))).map (fun e => e.results.length) = some 1 ∧
    (2 : Nat) ≠ 1 := by
  refine ⟨by decide, by decide, by decide⟩

/-- Concrete instantiation of `C7_dedup_idempotent` on an empty cache and a
one-item batch. -/
theorem C7_witness :
    ∃ e1 e2,
      lookupEntry "q" (updateCachedResults 1 "q" [⟨"s", "1", "x"⟩] ["a"] false []) =
        some e1 ∧
      lookupEntry "q" (updateCachedResults 2 "q" [⟨"s", "1", "x"⟩] ["b"] true
        (updateCachedResults 1 "q" [⟨"s", "1", "x"⟩] ["a"] false [])) = some e2 ∧
      e2.results = e1.results ∧
      e2.results.length = e1.results.length ∧
      e2.results.Pairwise (fun a b =>
        ¬(a.source_code = b.source_code ∧ a.vod_id = b.vod_id)) :=
  C7_dedup_idempotent [] "q" [⟨"s", "1", "x"⟩] ["a"] false ["b"] true 1 2 (by decide)

/-! ## Search-history lemmas -/

theorem sortHistory_perm (l : List SearchHistoryItem) : (sortHistory l).Perm l :=
  List.mergeSort_perm l _

theorem sortHistory_sorted (l : List SearchHistoryItem) :
    (sortHistory l).Pairwise (fun a b => b.updatedAt ≤ a.updatedAt) := by
  have h := @List.sorted_mergeSort SearchHistoryItem
    (fun a b : SearchHistoryItem => decide (b.updatedAt ≤ a.updatedAt))
    (fun a b c hab hbc => by
      simp only [decide_eq_true_eq] at hab hbc ⊢
      omega)
    (fun a b => by
      simp only [Bool.or_eq_true, decide_eq_true_eq]
      omega) l
  exact h.imp (fun hab => of_decide_eq_true hab)

theorem refreshFirst_contents (content : String) (now : Nat) :
    ∀ l : List SearchHistoryItem,
      (refreshFirstByContent content now l).map (·.content) = l.map (·.content) := by
  intro l
  induction l with
  | nil => rfl
  | cons a l ih =>
      by_cases ha : a.content = content
      · simp [refreshFirstByContent, ha]
      · simp [refreshFirstByContent, ha, ih]

theorem refreshFirst_mem {content : String} {now : Nat}
    {l : List SearchHistoryItem} {it : SearchHistoryItem}
    (h : l.find? (fun x => x.content == content) = some it) :
    ({ id := it.id, content := it.content, createdAt := it.createdAt,
       updatedAt := now } : SearchHistoryItem) ∈
      refreshFirstByContent content now l := by
  induction l with
  | nil => simp [List.find?] at h
  | cons a l ih =>
      by_cases ha : a.content = content
      · rw [List.find?_cons_of_pos _ (by simp [ha])] at h
        rcases Option.some.inj h with rfl
        simp [refreshFirstByContent, ha]
      · rw [List.find?_cons_of_neg _ (by simp [ha])] at h
        simp only [refreshFirstByContent, if_neg ha]
        exact List.mem_cons_of_mem a (ih h)

theorem history_step_invariant (l : List SearchHistoryItem)
    (hnd : (l.map (·.content)).Nodup)
    (hsorted : l.Pairwise (fun a b => b.updatedAt ≤ a.updatedAt)) :
    ∀ op : HistoryOp,
      ((applyHistoryOps [op] l).map (·.content)).Nodup ∧
      (applyHistoryOps [op] l).Pairwise (fun a b => b.updatedAt ≤ a.updatedAt) := by
  intro op
  cases op with
  | add now newId content =>
      have hred : applyHistoryOps [HistoryOp.add now newId content] l =
          addSearchHistoryItem now newId content l := rfl
      rw [hred]
      unfold addSearchHistoryItem
      cases hf : l.find? (fun x => x.content == content) with
      | some it =>
          constructor
          · have hperm := (sortHistory_perm (refreshFirstByContent content now l)).map
              (·.content)
            rw [hperm.nodup_iff, refreshFirst_contents]
            exact hnd
          · exact sortHistory_sorted _
      | none =>
          constructor
          · have hperm := (sortHistory_perm
              ({ id := newId, content := content, createdAt := now,
                 updatedAt := now } :: l)).map (·.content)
            rw [hperm.nodup_iff]
            simp only [List.map_cons, List.nodup_cons]
            refine ⟨fun hmem => ?_, hnd⟩
            rcases List.mem_map.mp hmem with ⟨x, hx, hxc⟩
            have := List.find?_eq_none.mp hf x hx
            simp [hxc] at this
          · exact sortHistory_sorted _
  | remove id =>
      have hred : applyHistoryOps [HistoryOp.remove id] l =
          removeSearchHistoryItem id l := rfl
      rw [hred]
      unfold removeSearchHistoryItem
      constructor
      · exact ((List.filter_sublist l).map (·.content)).nodup hnd
      · exact hsorted.sublist (List.filter_sublist l)
  | clear =>
      have hred : applyHistoryOps [HistoryOp.clear] l = [] := rfl
      rw [hred]
      simp

/-! ## Search-history claim -/

/-- C9: starting from an empty history, after any sequence of
`add`/`remove`/`clear` operations the history has at most one item per
distinct content (contents pairwise distinct) and is sorted descending by
`updatedAt`; and `add` on already-present content keeps the list length
(no duplicate inserted) and updates that item's `updatedAt` to the call
time while preserving its `id` and `createdAt`. -/
theorem C9_history_invariants :
    (∀ ops : List HistoryOp,
      ((applyHistoryOps ops []).map (·.content)).Nodup ∧
      (applyHistoryOps ops []).Pairwise (fun a b => b.updatedAt ≤ a.updatedAt)) ∧
    (∀ (now : Nat) (newId content : String) (l : List SearchHistoryItem)
        (it : SearchHistoryItem),
      l.find? (fun x => x.content == content) = some it →
      (addSearchHistoryItem now newId content l).length = l.length ∧
      ({ id := it.id, content := it.content, createdAt := it.createdAt,
         updatedAt := now } : SearchHistoryItem) ∈
        addSearchHistoryItem now newId content l) := by
  constructor
  · have hgen : ∀ (ops : List HistoryOp) (l : List SearchHistoryItem),
        (l.map (·.content)).Nodup →
        l.Pairwise (fun a b => b.updatedAt ≤ a.updatedAt) →
        ((applyHistoryOps ops l).map (·.content)).Nodup ∧
        (applyHistoryOps ops l).Pairwise (fun a b => b.updatedAt ≤ a.updatedAt) := by
      intro ops
      induction ops with
      | nil => intro l hnd hsorted; exact ⟨hnd, hsorted⟩
      | cons op ops ih =>
          intro l hnd hsorted
          have hstep := history_step_invariant l hnd hsorted op
          have hred : applyHistoryOps (op :: ops) l =
              applyHistoryOps ops (applyHistoryOps [op] l) := rfl
          rw [hred]
          exact ih _ hstep.1 hstep.2
    intro ops
    exact hgen ops [] (by simp) (by simp)
  · intro now newId content l it hf
    constructor
    · unfold addSearchHistoryItem
      rw [hf]
      have hperm := sortHistory_perm (refreshFirstByContent content now l)
      rw [hperm.length_eq]
      have := congrArg List.length (refreshFirst_contents content now l)
      simpa using this
    · unfold addSearchHistoryItem
      rw [hf]
      exact (sortHistory_perm _).mem_iff.mpr (refreshFirst_mem hf)

/-- Concrete instantiation of `C9_history_invariants`: re-adding existing
content keeps the length and refreshes the timestamp of the existing item. -/
theorem C9_witness :
    (addSearchHistoryItem 9 "newid" "foo"
        [⟨"i1", "foo", 1, 1⟩, ⟨"i2", "bar", 2, 2⟩]).length =
      ([⟨"i1", "foo", 1, 1⟩, ⟨"i2", "bar", 2, 2⟩] : List SearchHistoryItem).length ∧
    (⟨"i1", "foo", 1, 9⟩ : SearchHistoryItem) ∈
      addSearchHistoryItem 9 "newid" "foo"
        [⟨"i1", "foo", 1, 1⟩, ⟨"i2", "bar", 2, 2⟩] :=
  C9_history_invariants.2 9 "newid" "foo"
    [⟨"i1", "foo", 1, 1⟩, ⟨"i2", "bar", 2, 2⟩] ⟨"i1", "foo", 1, 1⟩ (by decide)

/-! ## Oldest-entry selection lemmas -/

theorem firstMinP_eq_none : ∀ l : List (String × Nat), firstMinP l = none ↔ l = [] := by
  intro l
  cases l with
  | nil => simp [firstMinP]
  | cons x xs =>
      rw [firstMinP]
      cases firstMinP xs with
      | none => simp
      | some q =>
          by_cases h : q.2 < x.2 <;> simp [h]

theorem foldl_min_firstMinP :
    ∀ (l : List (String × Nat)) (b : String × Nat),
      l.foldl (fun best p => if p.2 < best.2 then p else best) b =
        match firstMinP l with
        | none => b
        | some q => if q.2 < b.2 then q else b := by
  intro l
  induction l with
  | nil => intro b; rfl
  | cons p ps ih =>
      intro b
      rw [List.foldl_cons, ih]
      rw [firstMinP]
      cases hps : firstMinP ps with
      | none => simp only []
      | some q =>
          simp only []
          by_cases h1 : p.2 < b.2 <;> by_cases h2 : q.2 < p.2
          · have h3 : q.2 < b.2 := lt_trans h2 h1
            simp [h1, h2, h3]
          · simp [h1, h2]
          · simp [h1, h2]
          · have h3 : ¬(q.2 < b.2) := by omega
            simp [h1, h2, h3]

theorem firstMinP_spec : ∀ (l : List (String × Nat)) (p : String × Nat),
    firstMinP l = some p →
      (∀ q ∈ l, p.2 ≤ q.2) ∧ l.find? (fun q => q.2 == p.2) = some p := by
  intro l
  induction l with
  | nil => intro p h; simp [firstMinP] at h
  | cons x xs ih =>
      intro p h
      rw [firstMinP] at h
      cases hxs : firstMinP xs with
      | none =>
          rw [hxs] at h
          rcases Option.some.inj h with rfl
          have hnil : xs = [] := (firstMinP_eq_none xs).mp hxs
          subst hnil
          exact ⟨by simp, by rw [List.find?_cons_of_pos _ (by simp)]⟩
      | some q =>
          rw [hxs] at h
          have hred : (match some q with
              | none => some x
              | some q => if q.2 < x.2 then some q else some x) =
              if q.2 < x.2 then some q else some x := rfl
          rw [hred] at h
          rcases ih q hxs with ⟨hqmin, hqfind⟩
          by_cases hlt : q.2 < x.2
          · rw [if_pos hlt] at h
            rcases Option.some.inj h with rfl
            refine ⟨?_, ?_⟩
            · intro r hr
              rcases List.mem_cons.mp hr with hr | hr
              · exact hr ▸ le_of_lt hlt
              · exact hqmin r hr
            · rw [List.find?_cons_of_neg _ (by simp; omega)]
              exact hqfind
          · rw [if_neg hlt] at h
            rcases Option.some.inj h with rfl
            refine ⟨?_, ?_⟩
            · intro r hr
              rcases List.mem_cons.mp hr with hr | hr
              · exact hr ▸ le_refl _
              · exact le_trans (by omega) (hqmin r hr)
            · rw [List.find?_cons_of_pos _ (by simp)]

theorem foldl_keys_eq_pairs (ts : String → Nat) :
    ∀ (l : Cache) (b : String × Nat), (∀ p ∈ l, ts p.1 = p.2.timestamp) →
      (l.map Prod.fst).foldl (fun best k => if ts k < best.2 then (k, ts k) else best) b =
      (l.map (fun p => (p.1, p.2.timestamp))).foldl
        (fun best p => if p.2 < best.2 then p else best) b := by
  intro l
  induction l with
  | nil => intro b _; rfl
  | cons p ps ih =>
      intro b h
      simp only [List.map_cons, List.foldl_cons]
      rw [h p (by simp)]
      exact ih _ (fun x hx => h x (by simp [hx]))

theorem findOldestKey_eq_none_iff (now : Nat) (c : Cache) :
    findOldestKey now c = none ↔ c = [] := by
  cases c with
  | nil => simp [findOldestKey]
  | cons p ps =>
      unfold findOldestKey
      simp

theorem findOldestKey_spec {c : Cache} (now : Nat)
    (hnd : (c.map Prod.fst).Nodup) (hts : ∀ p ∈ c, 0 < p.2.timestamp)
    (hne : c ≠ []) :
    ∃ k e, (∀ p ∈ c, e.timestamp ≤ p.2.timestamp) ∧
      c.find? (fun p => p.2.timestamp == e.timestamp) = some (k, e) ∧
      findOldestKey now c = some k := by
  cases c with
  | nil => exact absurd rfl hne
  | cons p0 ps =>
      have hts' : ∀ p ∈ (p0 :: ps),
          (match lookupEntry p.1 (p0 :: ps) with
            | some e => if e.timestamp = 0 then now else e.timestamp
            | none => now) = p.2.timestamp := by
        intro p hp
        have hl : lookupEntry p.1 (p0 :: ps) = some p.2 :=
          lookupEntry_of_mem_nodup hnd hp
        simp only [hl]
        rw [if_neg (by have := hts p hp; omega)]
      have hunf : findOldestKey now (p0 :: ps) =
          some (((p0 :: ps).map Prod.fst).foldl
            (fun best k =>
              if (match lookupEntry k (p0 :: ps) with
                  | some e => if e.timestamp = 0 then now else e.timestamp
                  | none => now) < best.2 then
                (k, (match lookupEntry k (p0 :: ps) with
                  | some e => if e.timestamp = 0 then now else e.timestamp
                  | none => now))
              else best)
            (p0.1, (match lookupEntry p0.1 (p0 :: ps) with
              | some e => if e.timestamp = 0 then now else e.timestamp
              | none => now))).1 := rfl
      rw [hunf, foldl_keys_eq_pairs _ (p0 :: ps) _ hts', hts' p0 (by simp)]
      cases hfm : firstMinP ((p0 :: ps).map (fun p => (p.1, p.2.timestamp))) with
      | none =>
          rw [firstMinP_eq_none] at hfm
          simp at hfm
      | some r =>
          rcases firstMinP_spec _ r hfm with ⟨hrmin, hrfind⟩
          have hfold : ((p0 :: ps).map (fun p => (p.1, p.2.timestamp))).foldl
              (fun best p => if p.2 < best.2 then p else best)
              (p0.1, p0.2.timestamp) = r := by
            rw [foldl_min_firstMinP, hfm]
            have hred : (match some r with
                | none => (p0.1, p0.2.timestamp)
                | some q => if q.2 < (p0.1, p0.2.timestamp).2 then q
                    else (p0.1, p0.2.timestamp)) =
                if r.2 < p0.2.timestamp then r else (p0.1, p0.2.timestamp) := rfl
            rw [hred]
            by_cases hlt : r.2 < p0.2.timestamp
            · rw [if_pos hlt]
            · rw [if_neg hlt]
              have hhead : ((p0 :: ps).map (fun p => (p.1, p.2.timestamp))).find?
                  (fun q => q.2 == r.2) = some (p0.1, p0.2.timestamp) := by
                simp only [List.map_cons]
                rw [List.find?_cons_of_pos _ ?_]
                show decide ((p0.1, p0.2.timestamp).2 = r.2) = true
                have hle := hrmin (p0.1, p0.2.timestamp) (by simp)
                simp only [decide_eq_true_eq]
                omega
              rw [hhead] at hrfind
              exact Option.some.inj hrfind
          rw [hfold]
          have hmapfind := @List.find?_map (String × SearchCacheItem)
            (String × Nat) (fun q => q.2 == r.2)
            (fun p => (p.1, p.2.timestamp)) (p0 :: ps)
          rw [hrfind] at hmapfind
          rcases Option.map_eq_some'.mp hmapfind.symm with ⟨pe, hpe, hfpe⟩
          have hts2 : pe.2.timestamp = r.2 := congrArg Prod.snd hfpe
          have hk : pe.1 = r.1 := congrArg Prod.fst hfpe
          refine ⟨r.1, pe.2, ?_, ?_, rfl⟩
          · intro p hp
            have hmem := hrmin (p.1, p.2.timestamp) (List.mem_map.mpr ⟨p, hp, rfl⟩)
            simp only [] at hmem
            omega
          · have hpred : (fun p : String × SearchCacheItem =>
                p.2.timestamp == pe.2.timestamp) =
                ((fun q : String × Nat => q.2 == r.2) ∘
                  (fun p : String × SearchCacheItem => (p.1, p.2.timestamp))) := by
              funext p
              rw [hts2]
              rfl
            rw [hpred, hpe]
            have hpe' : pe = (r.1, pe.2) := by
              rcases pe with ⟨pk, pv⟩
              simp only [] at hk
              rw [hk]
            rw [← hpe']

theorem foldl_sel_fst_mem (ts : String → Nat) (S : List String) :
    ∀ (l : List String) (b : String × Nat), b.1 ∈ S → (∀ x ∈ l, x ∈ S) →
      (l.foldl (fun best k => if ts k < best.2 then (k, ts k) else best) b).1 ∈ S := by
  intro l
  induction l with
  | nil => intro b hb _; exact hb
  | cons x xs ih =>
      intro b hb hl
      rw [List.foldl_cons]
      by_cases hx : ts x < b.2
      · rw [if_pos hx]
        exact ih _ (hl x (by simp)) (fun y hy => hl y (by simp [hy]))
      · rw [if_neg hx]
        exact ih _ hb (fun y hy => hl y (by simp [hy]))

theorem findOldestKey_mem {now : Nat} {c : Cache} {k : String}
    (h : findOldestKey now c = some k) : k ∈ c.map Prod.fst := by
  cases c with
  | nil => simp [findOldestKey] at h
  | cons p0 ps =>
      have hunf : findOldestKey now (p0 :: ps) =
          some (((p0 :: ps).map Prod.fst).foldl
            (fun best kk =>
              if (match lookupEntry kk (p0 :: ps) with
                  | some e => if e.timestamp = 0 then now else e.timestamp
                  | none => now) < best.2 then
                (kk, (match lookupEntry kk (p0 :: ps) with
                  | some e => if e.timestamp = 0 then now else e.timestamp
                  | none => now))
              else best)
            (p0.1, (match lookupEntry p0.1 (p0 :: ps) with
              | some e => if e.timestamp = 0 then now else e.timestamp
              | none => now))).1 := rfl
      rw [hunf] at h
      have hmem := foldl_sel_fst_mem
        (fun kk => match lookupEntry kk (p0 :: ps) with
          | some e => if e.timestamp = 0 then now else e.timestamp
          | none => now)
        ((p0 :: ps).map Prod.fst) ((p0 :: ps).map Prod.fst)
        (p0.1, (match lookupEntry p0.1 (p0 :: ps) with
          | some e => if e.timestamp = 0 then now else e.timestamp
          | none => now)) (by simp) (fun x hx => hx)
      exact Option.some.inj h ▸ hmem

theorem updateCachedResults_evicts {now : Nat} {q : String} {rs : List VideoItem}
    {ids : List String} {b : Bool} {c : Cache}
    (hnd : (c.map Prod.fst).Nodup) (hne : ∀ p ∈ c, p.1 ≠ "")
    (hts : ∀ p ∈ c, 0 < p.2.timestamp)
    (hq : lookupEntry q c = none) (hlen : c.length = MAX_CACHE_SIZE) :
    ∃ k e, (∀ p ∈ c, e.timestamp ≤ p.2.timestamp) ∧
      c.find? (fun p => p.2.timestamp == e.timestamp) = some (k, e) ∧
      updateCachedResults now q rs ids b c =
        eraseEntry k c ++ [(q, ⟨rs, ids, b, now⟩)] := by
  have hM : MAX_CACHE_SIZE = 10 := rfl
  have hcne : c ≠ [] := by
    intro hc
    rw [hc] at hlen
    simp [hM] at hlen
  rcases findOldestKey_spec now hnd hts hcne with ⟨k, e, hmin, hfind, hfok⟩
  have hkmem : (k, e) ∈ c := List.mem_of_find?_eq_some hfind
  have hkne : k ≠ "" := hne (k, e) hkmem
  refine ⟨k, e, hmin, hfind, ?_⟩
  rw [updateCachedResults_fresh hq, if_pos (by omega), hfok]
  have hred : (match some k with
      | some oldestKey => if oldestKey = "" then c else eraseEntry oldestKey c
      | none => c) = if k = "" then c else eraseEntry k c := rfl
  rw [hred, if_neg hkne]
  apply setEntry_of_not_mem
  intro hqmem
  exact (lookupEntry_eq_none_iff q c).mp hq
    (((eraseEntry_sublist k c).map Prod.fst).subset hqmem)

theorem applyUpdates_append_singleton (ops : List UpdateOp) (op : UpdateOp)
    (c0 : Cache) :
    applyUpdates (ops ++ [op]) c0 =
      updateCachedResults op.now op.query op.newResults op.completedApiIds
        op.isComplete (applyUpdates ops c0) := by
  unfold applyUpdates
  rw [List.foldl_append]
  rfl

theorem applyUpdates_invariant : ∀ ops : List UpdateOp,
    (∀ op ∈ ops, op.query ≠ "") →
    ((applyUpdates ops []).map Prod.fst).Nodup ∧
    (applyUpdates ops []).length =
      min ((ops.map (fun op => op.query)).toFinset.card) MAX_CACHE_SIZE ∧
    (∀ k ∈ (applyUpdates ops []).map Prod.fst, k ∈ ops.map (fun op => op.query)) ∧
    ((ops.map (fun op => op.query)).toFinset.card ≤ MAX_CACHE_SIZE →
      ∀ q ∈ ops.map (fun op => op.query), q ∈ (applyUpdates ops []).map Prod.fst) := by
  intro ops
  induction ops using List.reverseRecOn with
  | nil =>
      intro _
      refine ⟨by simp [applyUpdates], by simp [applyUpdates], ?_, ?_⟩
      · intro k hk
        simp [applyUpdates] at hk
      · intro _ q hq
        simp at hq
  | append_singleton ops op ih =>
      intro hops
      have hM : MAX_CACHE_SIZE = 10 := rfl
      have hops' : ∀ o ∈ ops, o.query ≠ "" := fun o ho => hops o (by simp [ho])
      rcases ih hops' with ⟨hnd, hlen, hsub, hcov⟩
      have happend := applyUpdates_append_singleton ops op []
      have hqs : (ops ++ [op]).map (fun o => o.query) =
          ops.map (fun o => o.query) ++ [op.query] := by simp
      have hins : ((ops ++ [op]).map (fun o => o.query)).toFinset =
          insert op.query (ops.map (fun o => o.query)).toFinset := by
        rw [hqs, List.toFinset_append]
        have h1 : ([op.query] : List String).toFinset = {op.query} := by simp
        rw [h1, Finset.union_comm]
        rfl
      cases hl : lookupEntry op.query (applyUpdates ops []) with
      | some e =>
          have hqmem : op.query ∈ (applyUpdates ops []).map Prod.fst := by
            by_contra hmem
            have := (lookupEntry_eq_none_iff op.query (applyUpdates ops [])).mpr hmem
            rw [this] at hl
            cases hl
          have hupd : applyUpdates (ops ++ [op]) [] =
              setEntry op.query
                ⟨uniqueResults (e.results ++ op.newResults),
                  dedupStrings [] (e.completedApiIds ++ op.completedApiIds),
                  op.isComplete || e.isComplete, op.now⟩ (applyUpdates ops []) := by
            rw [happend, updateCachedResults_existing hl]
          have hkeys' : (applyUpdates (ops ++ [op]) []).map Prod.fst =
              (applyUpdates ops []).map Prod.fst := by
            rw [hupd]
            exact keys_setEntry_of_mem hqmem _
          have hqseen : op.query ∈ ops.map (fun o => o.query) := hsub _ hqmem
          have hSins : insert op.query (ops.map (fun o => o.query)).toFinset =
              (ops.map (fun o => o.query)).toFinset :=
            Finset.insert_eq_self.mpr (List.mem_toFinset.mpr hqseen)
          refine ⟨by rw [hkeys']; exact hnd, ?_, ?_, ?_⟩
          · have hlen' : (applyUpdates (ops ++ [op]) []).length =
                (applyUpdates ops []).length := by
              calc (applyUpdates (ops ++ [op]) []).length
                  = ((applyUpdates (ops ++ [op]) []).map Prod.fst).length :=
                    (List.length_map _ _).symm
                _ = ((applyUpdates ops []).map Prod.fst).length := by rw [hkeys']
                _ = (applyUpdates ops []).length := List.length_map _ _
            rw [hlen', hins, hSins]
            exact hlen
          · intro k hk
            rw [hkeys'] at hk
            rw [hqs]
            exact List.mem_append_left _ (hsub k hk)
          · intro hcard q' hq'
            rw [hins, hSins] at hcard
            rw [hqs] at hq'
            rw [hkeys']
            rcases List.mem_append.mp hq' with hq' | hq'
            · exact hcov hcard q' hq'
            · rw [List.mem_singleton.mp hq']
              exact hqmem
      | none =>
          have hqnotmem : op.query ∉ (applyUpdates ops []).map Prod.fst :=
            (lookupEntry_eq_none_iff _ _).mp hl
          by_cases hcap : MAX_CACHE_SIZE ≤ (applyUpdates ops []).length
          · -- at capacity: eviction occurs
            have hminle : min ((ops.map (fun o => o.query)).toFinset.card)
                MAX_CACHE_SIZE ≤ MAX_CACHE_SIZE := min_le_right _ _
            have hc10 : (applyUpdates ops []).length = MAX_CACHE_SIZE := by omega
            have hcne : applyUpdates ops [] ≠ [] := by
              intro h
              rw [h] at hc10
              simp [hM] at hc10
            cases hfok : findOldestKey op.now (applyUpdates ops []) with
            | none =>
                rw [findOldestKey_eq_none_iff] at hfok
                exact absurd hfok hcne
            | some k =>
                have hkmem : k ∈ (applyUpdates ops []).map Prod.fst :=
                  findOldestKey_mem hfok
                have hkne : k ≠ "" := by
                  rcases List.mem_map.mp (hsub k hkmem) with ⟨o, ho, hoq⟩
                  rw [← hoq]
                  exact hops' o ho
                have hupd : applyUpdates (ops ++ [op]) [] =
                    eraseEntry k (applyUpdates ops []) ++
                      [(op.query, ⟨op.newResults, op.completedApiIds,
                        op.isComplete, op.now⟩)] := by
                  rw [happend, updateCachedResults_fresh hl, if_pos hcap, hfok]
                  have hred : (match some k with
                      | some oldestKey => if oldestKey = "" then applyUpdates ops []
                          else eraseEntry oldestKey (applyUpdates ops [])
                      | none => applyUpdates ops []) =
                      if k = "" then applyUpdates ops []
                      else eraseEntry k (applyUpdates ops []) := rfl
                  rw [hred, if_neg hkne]
                  apply setEntry_of_not_mem
                  intro hqmem
                  exact hqnotmem
                    (((eraseEntry_sublist k _).map Prod.fst).subset hqmem)
                have hkeys' : (applyUpdates (ops ++ [op]) []).map Prod.fst =
                    (eraseEntry k (applyUpdates ops [])).map Prod.fst ++ [op.query] := by
                  rw [hupd, List.map_append]
                  rfl
                have hernodup : ((eraseEntry k (applyUpdates ops [])).map Prod.fst).Nodup :=
                  keys_nodup_of_sublist (eraseEntry_sublist k _) hnd
                have hqnotmem' : op.query ∉
                    (eraseEntry k (applyUpdates ops [])).map Prod.fst := fun hm =>
                  hqnotmem (((eraseEntry_sublist k _).map Prod.fst).subset hm)
                have hcard10 : MAX_CACHE_SIZE ≤
                    ((ops.map (fun o => o.query)).toFinset.card) := by omega
                have hcardins : ((ops.map (fun o => o.query)).toFinset.card) ≤
                    (insert op.query (ops.map (fun o => o.query)).toFinset).card :=
                  Finset.card_le_card (Finset.subset_insert _ _)
                have herlen : (eraseEntry k (applyUpdates ops [])).length + 1 =
                    (applyUpdates ops []).length := length_eraseEntry_of_mem hkmem
                refine ⟨?_, ?_, ?_, ?_⟩
                · rw [hkeys']
                  simp only [List.nodup_append, List.nodup_cons]
                  refine ⟨hernodup, by simp, ?_⟩
                  intro a ha
                  simp only [List.mem_singleton]
                  intro haq
                  exact hqnotmem' (haq ▸ ha)
                · rw [hupd, List.length_append, hins]
                  simp only [List.length_singleton]
                  omega
                · intro kk hkk
                  rw [hkeys'] at hkk
                  rw [hqs]
                  rcases List.mem_append.mp hkk with hkk | hkk
                  · exact List.mem_append_left _
                      (hsub kk (((eraseEntry_sublist k _).map Prod.fst).subset hkk))
                  · exact List.mem_append_right _ hkk
                · intro hcard q' _
                  rw [hins] at hcard
                  by_cases hqS : op.query ∈ (ops.map (fun o => o.query)).toFinset
                  · rw [Finset.insert_eq_self.mpr hqS] at hcard
                    exact absurd (hcov hcard op.query (List.mem_toFinset.mp hqS))
                      hqnotmem
                  · have := Finset.card_insert_of_not_mem hqS
                    omega
          · -- below capacity: plain append
            have hupd : applyUpdates (ops ++ [op]) [] =
                applyUpdates ops [] ++
                  [(op.query, ⟨op.newResults, op.completedApiIds,
                    op.isComplete, op.now⟩)] := by
              rw [happend, updateCachedResults_fresh hl, if_neg hcap]
              exact setEntry_of_not_mem hqnotmem _
            have hkeys' : (applyUpdates (ops ++ [op]) []).map Prod.fst =
                (applyUpdates ops []).map Prod.fst ++ [op.query] := by
              rw [hupd, List.map_append]
              rfl
            have hqnew : op.query ∉ ops.map (fun o => o.query) := by
              intro hmem
              have hcardle : ((ops.map (fun o => o.query)).toFinset.card) ≤
                  MAX_CACHE_SIZE := by omega
              exact hqnotmem (hcov hcardle op.query hmem)
            have hqSnot : op.query ∉ (ops.map (fun o => o.query)).toFinset :=
              fun h => hqnew (List.mem_toFinset.mp h)
            have hcardins := Finset.card_insert_of_not_mem hqSnot
            have hcardlt : ((ops.map (fun o => o.query)).toFinset.card) <
                MAX_CACHE_SIZE := by omega
            refine ⟨?_, ?_, ?_, ?_⟩
            · rw [hkeys']
              simp only [List.nodup_append, List.nodup_cons]
              refine ⟨hnd, by simp, ?_⟩
              intro a ha
              simp only [List.mem_singleton]
              intro haq
              exact hqnotmem (haq ▸ ha)
            · rw [hupd, List.length_append, hins]
              simp only [List.length_singleton]
              omega
            · intro kk hkk
              rw [hkeys'] at hkk
              rw [hqs]
              rcases List.mem_append.mp hkk with hkk | hkk
              · exact List.mem_append_left _ (hsub kk hkk)
              · exact List.mem_append_right _ hkk
            · intro hcard q' hq'
              rw [hqs] at hq'
              rw [hkeys']
              rcases List.mem_append.mp hq' with hq' | hq'
              · exact List.mem_append_left _
                  (hcov (by omega) q' hq')
              · exact List.mem_append_right _ hq'

/-! ## Capacity / eviction claim -/

/-- C2 (amended): starting from an empty cache, after any sequence of
`updateCachedResults` calls whose queries are all nonempty the cache holds at
most 10 entries, and exactly 10 once more than 10 distinct queries have been
introduced; and whenever `update` is called with a fresh query on a cache at
capacity 10 whose keys are nonempty and whose timestamps are positive, the
evicted entry is exactly the first-encountered entry with the smallest
timestamp, and the new entry is appended after it is removed.  (With an
empty-string key the `if (oldestKey)` guard skips the delete; with a zero
timestamp the `|| Date.now()` fallback distorts the comparison — hence the
side conditions.) -/
theorem C2_capacity_eviction :
    (∀ ops : List UpdateOp, (∀ op ∈ ops, op.query ≠ "") →
      (applyUpdates ops []).length ≤ MAX_CACHE_SIZE ∧
      (MAX_CACHE_SIZE < ((ops.map (fun op => op.query)).toFinset.card) →
        (applyUpdates ops []).length = MAX_CACHE_SIZE)) ∧
    (∀ (now : Nat) (q : String) (rs : List VideoItem) (ids : List String)
        (b : Bool) (c : Cache),
      (c.map Prod.fst).Nodup → (∀ p ∈ c, p.1 ≠ "") →
      (∀ p ∈ c, 0 < p.2.timestamp) →
      lookupEntry q c = none → c.length = MAX_CACHE_SIZE →
      ∃ k e, (∀ p ∈ c, e.timestamp ≤ p.2.timestamp) ∧
        c.find? (fun p => p.2.timestamp == e.timestamp) = some (k, e) ∧
        updateCachedResults now q rs ids b c =
          eraseEntry k c ++ [(q, ⟨rs, ids, b, now⟩)]) := by
  constructor
  · intro ops hops
    rcases applyUpdates_invariant ops hops with ⟨_, hlen, _, _⟩
    constructor
    · omega
    · intro hcard
      omega
  · intro now q rs ids b c hnd hne hts hq hlen
    exact updateCachedResults_evicts hnd hne hts hq hlen

/-- The capacity bound fails as stated: eleven updates — the first with the
empty-string query — leave the cache with 11 entries, because the eviction
`delete` is guarded by `if (oldestKey)`, which is falsy for the key `""`. -/
theorem C2_counterexample :
    (applyUpdates elevenUpdates []).length = 11 ∧
    ¬((applyUpdates elevenUpdates []).length ≤ MAX_CACHE_SIZE) := by
  refine ⟨by decide, by decide⟩

/-- Concrete instantiation of `C2_capacity_eviction`: a one-update sequence
respects the bound, and on a concrete full cache the oldest entry (key `k1`,
timestamp 1) is selected for eviction. -/
theorem C2_witness :
    (applyUpdates [⟨1, "a", [], [], false⟩] []).length ≤ MAX_CACHE_SIZE ∧
    ∃ k e, (∀ p ∈ ([("k0", ⟨[], [], false, 3⟩), ("k1", ⟨[], [], false, 1⟩),
        ("k2", ⟨[], [], false, 2⟩), ("k3", ⟨[], [], false, 4⟩),
        ("k4", ⟨[], [], false, 5⟩), ("k5", ⟨[], [], false, 6⟩),
        ("k6", ⟨[], [], false, 7⟩), ("k7", ⟨[], [], false, 8⟩),
        ("k8", ⟨[], [], false, 9⟩), ("k9", ⟨[], [], false, 10⟩)] : Cache),
        e.timestamp ≤ p.2.timestamp) ∧
      ([("k0", ⟨[], [], false, 3⟩), ("k1", ⟨[], [], false, 1⟩),
        ("k2", ⟨[], [], false, 2⟩), ("k3", ⟨[], [], false, 4⟩),
        ("k4", ⟨[], [], false, 5⟩), ("k5", ⟨[], [], false, 6⟩),
        ("k6", ⟨[], [], false, 7⟩), ("k7", ⟨[], [], false, 8⟩),
        ("k8", ⟨[], [], false, 9⟩), ("k9", ⟨[], [], false, 10⟩)] : Cache).find?
          (fun p => p.2.timestamp == e.timestamp) = some (k, e) ∧
      updateCachedResults 99 "new" [] [] false
        [("k0", ⟨[], [], false, 3⟩), ("k1", ⟨[], [], false, 1⟩),
         ("k2", ⟨[], [], false, 2⟩), ("k3", ⟨[], [], false, 4⟩),
         ("k4", ⟨[], [], false, 5⟩), ("k5", ⟨[], [], false, 6⟩),
         ("k6", ⟨[], [], false, 7⟩), ("k7", ⟨[], [], false, 8⟩),
         ("k8", ⟨[], [], false, 9⟩), ("k9", ⟨[], [], false, 10⟩)] =
        eraseEntry k
          [("k0", ⟨[], [], false, 3⟩), ("k1", ⟨[], [], false, 1⟩),
           ("k2", ⟨[], [], false, 2⟩), ("k3", ⟨[], [], false, 4⟩),
           ("k4", ⟨[], [], false, 5⟩), ("k5", ⟨[], [], false, 6⟩),
           ("k6", ⟨[], [], false, 7⟩), ("k7", ⟨[], [], false, 8⟩),
           ("k8", ⟨[], [], false, 9⟩), ("k9", ⟨[], [], false, 10⟩)] ++
          [("new", ⟨[], [], false, 99⟩)] :=
  ⟨(C2_capacity_eviction.1 [⟨1, "a", [], [], false⟩] (by decide)).1,
   C2_capacity_eviction.2 99 "new" [] [] false
     [("k0", ⟨[], [], false, 3⟩), ("k1", ⟨[], [], false, 1⟩),
      ("k2", ⟨[], [], false, 2⟩), ("k3", ⟨[], [], false, 4⟩),
      ("k4", ⟨[], [], false, 5⟩), ("k5", ⟨[], [], false, 6⟩),
      ("k6", ⟨[], [], false, 7⟩), ("k7", ⟨[], [], false, 8⟩),
      ("k8", ⟨[], [], false, 9⟩), ("k9", ⟨[], [], false, 10⟩)]
     (by decide) (by decide) (by decide) (by decide) (by decide)⟩

end OuonnkiTV
